import Mathlib

/-!
# Verification of the SalesInsight NL2SQL core (shallow embedding)

This file embeds, in Lean 4, the security-critical core of the
SalesInsight-Foundry-POC repository:

* `QueryValidator.validate` and its checks
  (`code/backend/batch/utilities/nl2sql/query_validator.py`),
* the pattern SQL cache `SQLCache`
  (`code/backend/batch/utilities/tools/trackman_nl_query_tool.py`),
* the semantic cache `SemanticCache`
  (`code/backend/batch/utilities/helpers/azure_ai_integration.py`),
* `SchemaDiscovery.get_table_schema` and its `SchemaCache`
  (`code/backend/batch/utilities/data_sources/schema_discovery.py`),

and proves or refutes the frozen specification claims about them.

Modelling conventions:

* SQL text and question text are `List Char` (`Str`); the ASCII fragment of
  Python's `str.upper`/`str.lower`/`\s`/`\d`/`\w` is modelled exactly.
* The external `sqlparse` library is an oracle: `parse` abstracts
  `sqlparse.parse` together with the repository's own token-tree walkers
  (`get_type`, `_extract_tables`, `_extract_columns`), and `fmt` abstracts
  `sqlparse.format(sql, reindent=True, keyword_case="upper")`.  Everything
  the repository itself computes on the raw SQL string (the regex checks,
  the LIMIT handling, the injection scan, the cache logic) is implemented
  concretely.
* Wall-clock time (`time.time()` / `datetime.now()`) is an explicit `Nat`
  parameter (seconds).
* `hashlib.md5(...).hexdigest()` is an injected key-derivation oracle
  (`keyFn`), and the embedding collaborator is an oracle as well.
-/

set_option maxRecDepth 4000

namespace SalesInsight

/-- SQL / question text, as a list of characters. -/
abbrev Str := List Char

/-! ## Character classes (ASCII model of Python `\s`, `\d`, `\w`, `str.upper`) -/

/-- Python regex `\s` (ASCII): space, tab, newline, carriage return,
vertical tab, form feed. -/
def isPyWs (c : Char) : Bool :=
  c.toNat = 32 || c.toNat = 9 || c.toNat = 10 || c.toNat = 13 ||
  c.toNat = 11 || c.toNat = 12

/-- Python regex `\d` (ASCII): the characters 0-9. -/
def isDig (c : Char) : Bool :=
  48 ≤ c.toNat && c.toNat ≤ 57

/-- Python regex `[0-9a-fA-F]`. -/
def isHexDig (c : Char) : Bool :=
  isDig c || (97 ≤ c.toNat && c.toNat ≤ 102) || (65 ≤ c.toNat && c.toNat ≤ 70)

/-- Python regex `\w` (ASCII): letters, digits, underscore. -/
def isWordC (c : Char) : Bool :=
  (65 ≤ c.toNat && c.toNat ≤ 90) || (97 ≤ c.toNat && c.toNat ≤ 122) ||
  isDig c || c.toNat = 95

/-- ASCII upper-casing of one character (`str.upper`, and the effect of
`re.IGNORECASE` on ASCII letters). -/
def upC (c : Char) : Char :=
  if h : 97 ≤ c.toNat ∧ c.toNat ≤ 122 then
    Char.ofNatAux (c.toNat - 32) (Or.inl (by omega))
  else c

/-- ASCII lower-casing of one character (`str.lower`). -/
def lowC (c : Char) : Char :=
  if h : 65 ≤ c.toNat ∧ c.toNat ≤ 90 then
    Char.ofNatAux (c.toNat + 32) (Or.inl (by omega))
  else c

/-- `str.upper` on a whole string. -/
def upS (l : Str) : Str := l.map upC

/-- `str.lower` on a whole string. -/
def lowS (l : Str) : Str := l.map lowC

/-- `str.upper` for `String`-typed identifiers (table / column names). -/
def strUp (s : String) : String := String.mk (upS s.toList)

theorem toNat_ofNatAux (n : Nat) (h : n.isValidChar) :
    (Char.ofNatAux n h).toNat = n := rfl

theorem upC_toNat_of_lower {c : Char} (h : 97 ≤ c.toNat ∧ c.toNat ≤ 122) :
    (upC c).toNat = c.toNat - 32 := by
  unfold upC
  rw [dif_pos h]
  exact toNat_ofNatAux _ _

theorem upC_eq_self {c : Char} (h : ¬(97 ≤ c.toNat ∧ c.toNat ≤ 122)) :
    upC c = c := by
  unfold upC
  rw [dif_neg h]

theorem upC_toNat_cases (c : Char) :
    ((upC c).toNat = c.toNat - 32 ∧ 97 ≤ c.toNat ∧ c.toNat ≤ 122) ∨
    ((upC c) = c ∧ ¬(97 ≤ c.toNat ∧ c.toNat ≤ 122)) := by
  by_cases h : 97 ≤ c.toNat ∧ c.toNat ≤ 122
  · exact Or.inl ⟨upC_toNat_of_lower h, h⟩
  · exact Or.inr ⟨upC_eq_self h, h⟩

theorem upC_upC (c : Char) : upC (upC c) = upC c := by
  rcases upC_toNat_cases c with ⟨h1, h2⟩ | ⟨h1, _⟩
  · exact upC_eq_self (by omega)
  · rw [h1]
    exact h1

theorem upS_upS (l : Str) : upS (upS l) = upS l := by
  unfold upS
  rw [List.map_map]
  exact List.map_congr_left (fun c _ => upC_upC c)

theorem isDig_upC (c : Char) : isDig (upC c) = isDig c := by
  rcases upC_toNat_cases c with ⟨h1, h2⟩ | ⟨h1, _⟩
  · have ha : isDig (upC c) = false := by
      simp only [isDig, h1, Bool.and_eq_false_iff, decide_eq_false_iff_not]
      omega
    have hb : isDig c = false := by
      simp only [isDig, Bool.and_eq_false_iff, decide_eq_false_iff_not]
      omega
    rw [ha, hb]
  · rw [h1]

theorem isPyWs_upC (c : Char) : isPyWs (upC c) = isPyWs c := by
  rcases upC_toNat_cases c with ⟨h1, h2⟩ | ⟨h1, _⟩
  · have ha : isPyWs (upC c) = false := by
      simp only [isPyWs, h1, Bool.or_eq_false_iff, decide_eq_false_iff_not]
      omega
    have hb : isPyWs c = false := by
      simp only [isPyWs, Bool.or_eq_false_iff, decide_eq_false_iff_not]
      omega
    rw [ha, hb]
  · rw [h1]

theorem upC_of_dig {c : Char} (h : isDig c = true) : upC c = c := by
  apply upC_eq_self
  simp only [isDig, Bool.and_eq_true, decide_eq_true_eq] at h
  omega

theorem upC_of_ws {c : Char} (h : isPyWs c = true) : upC c = c := by
  apply upC_eq_self
  simp only [isPyWs, Bool.or_eq_true, decide_eq_true_eq] at h
  omega

theorem eq_of_toNat_eq {c d : Char} (h : c.toNat = d.toNat) : c = d := by
  have hv : c.val = d.val := by
    have h3 : c.val.toBitVec.toNat = d.val.toBitVec.toNat := h
    have h4 : c.val.toBitVec = d.val.toBitVec := BitVec.eq_of_toNat_eq h3
    cases c with
    | mk v p =>
      cases d with
      | mk w q =>
        cases v
        cases w
        simp_all
  exact Char.eq_of_val_eq hv

theorem toNat_upC_ws_ne {c : Char} (h : isPyWs c = true) (d : Char)
    (hd : 64 ≤ d.toNat ∧ d.toNat ≤ 90) : upC c ≠ d := by
  rw [upC_of_ws h]
  intro he
  subst he
  simp only [isPyWs, Bool.or_eq_true, decide_eq_true_eq] at h
  omega

/-! ## Substring containment (Python `in` on strings) -/

/-- `containsSub l pat` is Python `pat in l` (contiguous substring). -/
def containsSub : Str → Str → Bool
  | [], pat => pat.isPrefixOf []
  | c :: cs, pat => pat.isPrefixOf (c :: cs) || containsSub cs pat

theorem containsSub_iff {l pat : Str} :
    containsSub l pat = true ↔ ∃ t, t <:+ l ∧ pat <+: t := by
  induction l with
  | nil =>
    simp only [containsSub, List.isPrefixOf_iff_prefix]
    constructor
    · intro h
      exact ⟨[], List.suffix_refl _, h⟩
    · rintro ⟨t, ht, hp⟩
      rw [List.suffix_nil.mp ht] at hp
      exact hp
  | cons c cs ih =>
    simp only [containsSub, Bool.or_eq_true, List.isPrefixOf_iff_prefix, ih]
    constructor
    · rintro (h | ⟨t, ht, hp⟩)
      · exact ⟨c :: cs, List.suffix_refl _, h⟩
      · exact ⟨t, ht.trans (List.suffix_cons c cs), hp⟩
    · rintro ⟨t, ht, hp⟩
      rcases ht with ⟨u, hu⟩
      cases u with
      | nil =>
        left
        simpa [← hu] using hp
      | cons a u =>
        right
        refine ⟨t, ⟨u, ?_⟩, hp⟩
        have := congrArg List.tail hu
        simpa using this

theorem containsSub_of_sub {l t pat : Str} (ht : t <:+ l) (hp : pat <+: t) :
    containsSub l pat = true :=
  containsSub_iff.mpr ⟨t, ht, hp⟩

theorem containsSub_false_no_occ {l pat : Str} (h : containsSub l pat = false)
    {t : Str} (ht : t <:+ l) (hp : pat <+: t) : False := by
  have := containsSub_of_sub ht hp
  rw [h] at this
  exact Bool.false_ne_true this

/-- If `pat` does not occur in `l₂` then it does not occur in any infix of `l₂`. -/
theorem containsSub_false_of_infix {l₁ l₂ pat : Str} (hinf : l₁ <:+: l₂)
    (h : containsSub l₂ pat = false) : containsSub l₁ pat = false := by
  cases hc : containsSub l₁ pat with
  | false => rfl
  | true =>
    exfalso
    rcases containsSub_iff.mp hc with ⟨t, ht, hp⟩
    rcases hinf with ⟨a, b, hab⟩
    rcases ht with ⟨u, hu⟩
    refine containsSub_false_no_occ h (t := t ++ b) ?_ (hp.trans ⟨b, rfl⟩)
    exact ⟨a ++ u, by rw [← hab, ← hu]; simp⟩

/-! ## Decimal rendering and parsing (Python `f"{n}"` and `int(s)`) -/

/-- The decimal digit character for `d % 10`. -/
def digitChar (d : Nat) : Char :=
  Char.ofNatAux (48 + d % 10) (Or.inl (by omega))

def renderNatF : Nat → Nat → Str → Str
  | 0, _, acc => acc
  | _ + 1, 0, acc => acc
  | fuel + 1, n + 1, acc =>
    renderNatF fuel ((n + 1) / 10) (digitChar ((n + 1) % 10) :: acc)

/-- Digit accumulation for `renderNat` (fuel-indexed to keep the `n / 10`
recursion structural; `n` itself bounds the number of divisions). -/
def renderNatAux (n : Nat) (acc : Str) : Str := renderNatF n n acc

theorem renderNatF_congr : ∀ n f1 f2 : Nat, n ≤ f1 → n ≤ f2 → ∀ acc : Str,
    renderNatF f1 n acc = renderNatF f2 n acc := by
  intro n
  induction n using Nat.strong_induction_on with
  | _ n ih =>
    intro f1 f2 h1 h2 acc
    match n, f1, f2, h1, h2 with
    | 0, 0, 0, _, _ => rfl
    | 0, 0, _ + 1, _, _ => rfl
    | 0, _ + 1, 0, _, _ => rfl
    | 0, _ + 1, _ + 1, _, _ => rfl
    | k + 1, g1 + 1, g2 + 1, h1, h2 =>
      show renderNatF g1 ((k + 1) / 10) _ = renderNatF g2 ((k + 1) / 10) _
      have hdiv : (k + 1) / 10 < k + 1 := Nat.div_lt_self (Nat.succ_pos k) (by omega)
      exact ih ((k + 1) / 10) hdiv g1 g2 (by omega) (by omega) _

theorem renderNatAux_succ (k : Nat) (acc : Str) :
    renderNatAux (k + 1) acc =
      renderNatAux ((k + 1) / 10) (digitChar ((k + 1) % 10) :: acc) := by
  show renderNatF (k + 1) (k + 1) acc = renderNatF ((k + 1) / 10) ((k + 1) / 10) _
  show renderNatF k ((k + 1) / 10) _ = renderNatF ((k + 1) / 10) ((k + 1) / 10) _
  have hdiv : (k + 1) / 10 < k + 1 := Nat.div_lt_self (Nat.succ_pos k) (by omega)
  exact renderNatF_congr ((k + 1) / 10) k ((k + 1) / 10) (by omega) (Nat.le_refl _) _

/-- Decimal rendering of a natural number (Python `str(n)` / f-string). -/
def renderNat (n : Nat) : Str :=
  if n = 0 then [digitChar 0] else renderNatAux n []

/-- Numeric value of a digit string (Python `int(s)` on `\d+` matches). -/
def digitsToNat (l : Str) : Nat :=
  l.foldl (fun a c => 10 * a + (c.toNat - 48)) 0

theorem isDig_digitChar (d : Nat) : isDig (digitChar d) = true := by
  simp only [isDig, digitChar, toNat_ofNatAux, Bool.and_eq_true, decide_eq_true_eq]
  omega

theorem toNat_digitChar (d : Nat) : (digitChar d).toNat = 48 + d % 10 :=
  toNat_ofNatAux _ _

theorem renderNatAux_acc (n : Nat) : ∀ acc : Str,
    renderNatAux n acc = renderNatAux n [] ++ acc := by
  induction n using Nat.strong_induction_on with
  | _ n ih =>
    intro acc
    match n with
    | 0 => simp [renderNatAux, renderNatF]
    | m + 1 =>
      rw [renderNatAux_succ, renderNatAux_succ]
      rw [ih ((m + 1) / 10) (Nat.div_lt_self (Nat.succ_pos m) (by omega)),
        ih ((m + 1) / 10) (Nat.div_lt_self (Nat.succ_pos m) (by omega))
          (digitChar ((m + 1) % 10) :: [])]
      simp

theorem digitsToNat_append (a b : Str) :
    digitsToNat (a ++ b) =
      List.foldl (fun a c => 10 * a + (c.toNat - 48)) (digitsToNat a) b := by
  unfold digitsToNat
  rw [List.foldl_append]

theorem digitsToNat_renderNatAux (n : Nat) :
    digitsToNat (renderNatAux n []) = n := by
  induction n using Nat.strong_induction_on with
  | _ n ih =>
    match n with
    | 0 => simp [renderNatAux, renderNatF, digitsToNat]
    | m + 1 =>
      rw [renderNatAux_succ, renderNatAux_acc]
      rw [digitsToNat_append]
      rw [ih ((m + 1) / 10) (Nat.div_lt_self (Nat.succ_pos m) (by omega))]
      simp only [List.foldl_cons, List.foldl_nil, toNat_digitChar]
      omega

theorem digitsToNat_renderNat (n : Nat) : digitsToNat (renderNat n) = n := by
  unfold renderNat
  by_cases h : n = 0
  · subst h
    simp [digitsToNat, toNat_digitChar]
  · rw [if_neg h]
    exact digitsToNat_renderNatAux n

theorem renderNatAux_all_dig (n : Nat) :
    ∀ c ∈ renderNatAux n [], isDig c = true := by
  induction n using Nat.strong_induction_on with
  | _ n ih =>
    match n with
    | 0 => simp [renderNatAux, renderNatF]
    | m + 1 =>
      rw [renderNatAux_succ, renderNatAux_acc]
      intro c hc
      rcases List.mem_append.mp hc with h | h
      · exact ih ((m + 1) / 10) (Nat.div_lt_self (Nat.succ_pos m) (by omega)) c h
      · rcases List.mem_singleton.mp h with rfl
        exact isDig_digitChar _

theorem renderNat_all_dig (n : Nat) : ∀ c ∈ renderNat n, isDig c = true := by
  unfold renderNat
  by_cases h : n = 0
  · subst h
    intro c hc
    rcases List.mem_singleton.mp (by simpa using hc) with rfl
    exact isDig_digitChar _
  · rw [if_neg h]
    exact renderNatAux_all_dig n

theorem renderNat_ne_nil (n : Nat) : renderNat n ≠ [] := by
  unfold renderNat
  by_cases h : n = 0
  · simp [h]
  · rw [if_neg h]
    intro hcon
    have := digitsToNat_renderNatAux n
    rw [hcon] at this
    simp [digitsToNat] at this
    omega

theorem upS_renderNat (n : Nat) : upS (renderNat n) = renderNat n := by
  unfold upS
  rw [List.map_congr_left (fun c hc => upC_of_dig (renderNat_all_dig n c hc))]
  exact List.map_id _

/-! ## The regex `LIMIT\s+(\d+)` (case-insensitive)

This models `re.search(r"LIMIT\s+(\d+)", s, re.IGNORECASE)` (the first match),
`re.findall`-style scanning, and
`re.sub(r"LIMIT\s+\d+", f"LIMIT {max}", s, flags=re.IGNORECASE)`
(replacement of every non-overlapping match, scanning left to right),
exactly as used by `QueryValidator._check_limit` and
`QueryValidator._sanitize_sql`.  Since `\s` and `\d` are disjoint character
classes, the regex engine's greedy matching coincides with maximal munch. -/

/-- Match `\s+(\d+)` at the head of the text; return the numeric value of the
digit group and the rest of the text.  (`\s+` greedily skips the whitespace
run, `\d+` greedily takes the digit run; `\s` and `\d` are disjoint, so this
is exactly the regex engine's behaviour.) -/
def matchWsDigits : Str → Option (Nat × Str)
  | [] => none
  | c :: cs =>
    if isPyWs c then
      if ((cs.dropWhile isPyWs).takeWhile isDig).isEmpty then none
      else some (digitsToNat ((cs.dropWhile isPyWs).takeWhile isDig),
        (cs.dropWhile isPyWs).dropWhile isDig)
    else none

/-- Match the tail `T` of the literal `LIMIT`, then `\s+(\d+)`. -/
def afterLIMI : Str → Option (Nat × Str)
  | [] => none
  | c :: cs => if upC c = 'T' then matchWsDigits cs else none

def afterLIM : Str → Option (Nat × Str)
  | [] => none
  | c :: cs => if upC c = 'I' then afterLIMI cs else none

def afterLI : Str → Option (Nat × Str)
  | [] => none
  | c :: cs => if upC c = 'M' then afterLIM cs else none

def afterL : Str → Option (Nat × Str)
  | [] => none
  | c :: cs => if upC c = 'I' then afterLI cs else none

/-- Match `LIMIT\s+(\d+)` (case-insensitive) at the head of the text. -/
def matchLimitNum : Str → Option (Nat × Str)
  | [] => none
  | c :: cs => if upC c = 'L' then afterL cs else none

/-- The uppercase text `LIMIT` (as checked by `"LIMIT" in sql.upper()`). -/
def LIMITU : Str := ['L', 'I', 'M', 'I', 'T']

/-- The replacement text `f"LIMIT {m}"` used by `_sanitize_sql`. -/
def limitStr (m : Nat) : Str :=
  'L' :: 'I' :: 'M' :: 'I' :: 'T' :: ' ' :: renderNat m

theorem matchWsDigits_some_elim {l : Str} {v : Nat} {rest : Str}
    (h : matchWsDigits l = some (v, rest)) :
    ∃ c cs, l = c :: cs ∧ isPyWs c = true ∧
      ((cs.dropWhile isPyWs).takeWhile isDig).isEmpty = false ∧
      v = digitsToNat ((cs.dropWhile isPyWs).takeWhile isDig) ∧
      rest = (cs.dropWhile isPyWs).dropWhile isDig := by
  match l with
  | [] => simp [matchWsDigits] at h
  | c :: cs =>
    simp only [matchWsDigits] at h
    by_cases hw : isPyWs c
    · rw [if_pos hw] at h
      by_cases he : (List.takeWhile isDig (cs.dropWhile isPyWs)).isEmpty
      · rw [if_pos he] at h
        exact absurd h (by simp)
      · rw [if_neg he] at h
        injection h with h3
        injection h3 with h4 h5
        exact ⟨c, cs, rfl, hw, Bool.eq_false_iff.mpr he, h4.symm, h5.symm⟩
    · rw [if_neg hw] at h
      exact absurd h (by simp)

theorem matchWsDigits_length {l : Str} {v : Nat} {rest : Str}
    (h : matchWsDigits l = some (v, rest)) : rest.length ≤ l.length := by
  rcases matchWsDigits_some_elim h with ⟨c, cs, rfl, _, _, _, hrest⟩
  subst hrest
  calc ((cs.dropWhile isPyWs).dropWhile isDig).length
      ≤ (cs.dropWhile isPyWs).length := (List.dropWhile_suffix _).length_le
    _ ≤ cs.length := (List.dropWhile_suffix _).length_le
    _ ≤ (c :: cs).length := by simp

theorem afterLIMI_length {l : Str} {v : Nat} {rest : Str}
    (h : afterLIMI l = some (v, rest)) : rest.length ≤ l.length := by
  match l with
  | [] => simp [afterLIMI] at h
  | c :: cs =>
    simp only [afterLIMI] at h
    by_cases hc : upC c = 'T'
    · rw [if_pos hc] at h
      exact Nat.le_trans (matchWsDigits_length h) (by simp)
    · rw [if_neg hc] at h
      exact absurd h (by simp)

theorem afterLIM_length {l : Str} {v : Nat} {rest : Str}
    (h : afterLIM l = some (v, rest)) : rest.length ≤ l.length := by
  match l with
  | [] => simp [afterLIM] at h
  | c :: cs =>
    simp only [afterLIM] at h
    by_cases hc : upC c = 'I'
    · rw [if_pos hc] at h
      exact Nat.le_trans (afterLIMI_length h) (by simp)
    · rw [if_neg hc] at h
      exact absurd h (by simp)

theorem afterLI_length {l : Str} {v : Nat} {rest : Str}
    (h : afterLI l = some (v, rest)) : rest.length ≤ l.length := by
  match l with
  | [] => simp [afterLI] at h
  | c :: cs =>
    simp only [afterLI] at h
    by_cases hc : upC c = 'M'
    · rw [if_pos hc] at h
      exact Nat.le_trans (afterLIM_length h) (by simp)
    · rw [if_neg hc] at h
      exact absurd h (by simp)

theorem afterL_length {l : Str} {v : Nat} {rest : Str}
    (h : afterL l = some (v, rest)) : rest.length ≤ l.length := by
  match l with
  | [] => simp [afterL] at h
  | c :: cs =>
    simp only [afterL] at h
    by_cases hc : upC c = 'I'
    · rw [if_pos hc] at h
      exact Nat.le_trans (afterLI_length h) (by simp)
    · rw [if_neg hc] at h
      exact absurd h (by simp)

theorem matchLimitNum_length {c : Char} {cs : Str} {v : Nat} {rest : Str}
    (h : matchLimitNum (c :: cs) = some (v, rest)) :
    rest.length < (c :: cs).length := by
  simp only [matchLimitNum] at h
  by_cases hc : upC c = 'L'
  · rw [if_pos hc] at h
    exact Nat.lt_of_le_of_lt (afterL_length h) (by simp)
  · rw [if_neg hc] at h
    exact absurd h (by simp)

/-- Fuel-indexed scanner for the matches of `LIMIT\s+(\d+)`; the fuel
(always instantiated with the text length, which bounds the number of scan
steps) makes the recursion structural, so that concrete instances evaluate. -/
def limitMatchesF : Nat → Str → List Nat
  | 0, _ => []
  | _ + 1, [] => []
  | fuel + 1, c :: cs =>
    match matchLimitNum (c :: cs) with
    | some (v, rest) => v :: limitMatchesF fuel rest
    | none => limitMatchesF fuel cs

/-- The list of values of every (non-overlapping, left-to-right) match of
`LIMIT\s+(\d+)` in the text. -/
def limitMatches (l : Str) : List Nat := limitMatchesF l.length l

def replaceAllLimitF (m : Nat) : Nat → Str → Str
  | 0, l => l
  | _ + 1, [] => []
  | fuel + 1, c :: cs =>
    match matchLimitNum (c :: cs) with
    | some (_, rest) => limitStr m ++ replaceAllLimitF m fuel rest
    | none => c :: replaceAllLimitF m fuel cs

/-- `re.sub(r"LIMIT\s+\d+", f"LIMIT {m}", s, flags=re.IGNORECASE)`. -/
def replaceAllLimit (m : Nat) (l : Str) : Str := replaceAllLimitF m l.length l

theorem limitMatchesF_congr : ∀ l : Str, ∀ f1 f2 : Nat,
    l.length ≤ f1 → l.length ≤ f2 → limitMatchesF f1 l = limitMatchesF f2 l := by
  have H : ∀ n, ∀ l : Str, l.length = n → ∀ f1 f2 : Nat,
      l.length ≤ f1 → l.length ≤ f2 →
      limitMatchesF f1 l = limitMatchesF f2 l := ?_
  · intro l
    exact H l.length l rfl
  intro n
  induction n using Nat.strong_induction_on with
  | _ n ih =>
    intro l hn f1 f2 h1 h2
    cases l with
    | nil =>
      cases f1 <;> cases f2 <;> rfl
    | cons c cs =>
      match f1, h1 with
      | g1 + 1, h1 =>
        match f2, h2 with
        | g2 + 1, h2 =>
          show limitMatchesF (g1 + 1) (c :: cs) = limitMatchesF (g2 + 1) (c :: cs)
          simp only [limitMatchesF]
          cases hm : matchLimitNum (c :: cs) with
          | some x =>
            rcases x with ⟨v, rest⟩
            have hr : rest.length < n := by
              rw [← hn]
              exact matchLimitNum_length hm
            have hlen2 : rest.length < cs.length + 1 := by
              have := matchLimitNum_length hm
              simpa using this
            have hg1 : rest.length ≤ g1 := by
              simp only [List.length_cons] at h1
              omega
            have hg2 : rest.length ≤ g2 := by
              simp only [List.length_cons] at h2
              omega
            simp only [ih rest.length hr rest rfl g1 g2 hg1 hg2]
          | none =>
            have hr : cs.length < n := by
              rw [← hn]
              simp
            have hg1 : cs.length ≤ g1 := by
              simp only [List.length_cons] at h1
              omega
            have hg2 : cs.length ≤ g2 := by
              simp only [List.length_cons] at h2
              omega
            simp only [ih cs.length hr cs rfl g1 g2 hg1 hg2]

theorem replaceAllLimitF_congr (m : Nat) : ∀ l : Str, ∀ f1 f2 : Nat,
    l.length ≤ f1 → l.length ≤ f2 →
    replaceAllLimitF m f1 l = replaceAllLimitF m f2 l := by
  have H : ∀ n, ∀ l : Str, l.length = n → ∀ f1 f2 : Nat,
      l.length ≤ f1 → l.length ≤ f2 →
      replaceAllLimitF m f1 l = replaceAllLimitF m f2 l := ?_
  · intro l
    exact H l.length l rfl
  intro n
  induction n using Nat.strong_induction_on with
  | _ n ih =>
    intro l hn f1 f2 h1 h2
    cases l with
    | nil =>
      cases f1 <;> cases f2 <;> rfl
    | cons c cs =>
      match f1, h1 with
      | g1 + 1, h1 =>
        match f2, h2 with
        | g2 + 1, h2 =>
          show replaceAllLimitF m (g1 + 1) (c :: cs) =
            replaceAllLimitF m (g2 + 1) (c :: cs)
          simp only [replaceAllLimitF]
          cases hm : matchLimitNum (c :: cs) with
          | some x =>
            rcases x with ⟨v, rest⟩
            have hr : rest.length < n := by
              rw [← hn]
              exact matchLimitNum_length hm
            have hlen2 : rest.length < cs.length + 1 := by
              have := matchLimitNum_length hm
              simpa using this
            have hg1 : rest.length ≤ g1 := by
              simp only [List.length_cons] at h1
              omega
            have hg2 : rest.length ≤ g2 := by
              simp only [List.length_cons] at h2
              omega
            simp only [ih rest.length hr rest rfl g1 g2 hg1 hg2]
          | none =>
            have hr : cs.length < n := by
              rw [← hn]
              simp
            have hg1 : cs.length ≤ g1 := by
              simp only [List.length_cons] at h1
              omega
            have hg2 : cs.length ≤ g2 := by
              simp only [List.length_cons] at h2
              omega
            simp only [ih cs.length hr cs rfl g1 g2 hg1 hg2]

theorem limitMatches_cons_some {c : Char} {cs : Str} {v : Nat} {rest : Str}
    (h : matchLimitNum (c :: cs) = some (v, rest)) :
    limitMatches (c :: cs) = v :: limitMatches rest := by
  show limitMatchesF (cs.length + 1) (c :: cs) = _
  simp only [limitMatchesF, h]
  rw [limitMatchesF_congr rest cs.length rest.length
    (by have := matchLimitNum_length h; simp only [List.length_cons] at this; omega)
    (Nat.le_refl _)]
  rfl

theorem limitMatches_cons_none {c : Char} {cs : Str}
    (h : matchLimitNum (c :: cs) = none) :
    limitMatches (c :: cs) = limitMatches cs := by
  show limitMatchesF (cs.length + 1) (c :: cs) = _
  simp only [limitMatchesF, h]
  exact limitMatchesF_congr cs cs.length cs.length (Nat.le_refl _) (Nat.le_refl _)

theorem replaceAllLimit_cons_some {m : Nat} {c : Char} {cs : Str} {v : Nat}
    {rest : Str} (h : matchLimitNum (c :: cs) = some (v, rest)) :
    replaceAllLimit m (c :: cs) = limitStr m ++ replaceAllLimit m rest := by
  show replaceAllLimitF m (cs.length + 1) (c :: cs) = _
  simp only [replaceAllLimitF, h]
  rw [replaceAllLimitF_congr m rest cs.length rest.length
    (by have := matchLimitNum_length h; simp only [List.length_cons] at this; omega)
    (Nat.le_refl _)]
  rfl

theorem replaceAllLimit_cons_none {m : Nat} {c : Char} {cs : Str}
    (h : matchLimitNum (c :: cs) = none) :
    replaceAllLimit m (c :: cs) = c :: replaceAllLimit m cs := by
  show replaceAllLimitF m (cs.length + 1) (c :: cs) = _
  simp only [replaceAllLimitF, h]
  rfl

theorem limitMatches_nil : limitMatches [] = [] := rfl

theorem replaceAllLimit_nil (m : Nat) : replaceAllLimit m [] = [] := rfl

/-! ### Structural facts about the `LIMIT\s+\d+` machinery -/

/-- The first character (if any) is not a digit.  This is the position
invariant that makes the greedy `\d+` munch unambiguous. -/
def headNotDig (l : Str) : Prop := ∀ c, l.head? = some c → isDig c = false

theorem headNotDig_nil : headNotDig ([] : Str) := by
  intro c h
  simp at h

theorem headNotDig_cons {c : Char} {cs : Str} (h : isDig c = false) :
    headNotDig (c :: cs) := by
  intro d hd
  simp only [List.head?_cons, Option.some.injEq] at hd
  rw [← hd]
  exact h

theorem ws_of_dig_false {c : Char} (h : isDig c = true) : isPyWs c = false := by
  simp only [isDig, Bool.and_eq_true, decide_eq_true_eq] at h
  simp only [isPyWs, Bool.or_eq_false_iff, decide_eq_false_iff_not]
  omega

theorem dig_of_ws_false {c : Char} (h : isPyWs c = true) : isDig c = false := by
  simp only [isPyWs, Bool.or_eq_true, decide_eq_true_eq] at h
  simp only [isDig, Bool.and_eq_false_iff, decide_eq_false_iff_not]
  omega

theorem dropWhile_head_not (p : Char → Bool) (l : Str) :
    ∀ c, (l.dropWhile p).head? = some c → p c = false := by
  induction l with
  | nil => intro c h; simp at h
  | cons a as ih =>
    intro c h
    by_cases ha : p a
    · rw [List.dropWhile_cons_of_pos ha] at h
      exact ih c h
    · rw [List.dropWhile_cons_of_neg ha] at h
      simp only [List.head?_cons, Option.some.injEq] at h
      rw [← h]
      exact Bool.eq_false_iff.mpr ha

theorem dropWhile_of_head_false {p : Char → Bool} {c : Char} {cs : Str}
    (h : p c = false) : (c :: cs).dropWhile p = c :: cs :=
  List.dropWhile_cons_of_neg (by simp [h])

theorem takeWhile_of_head_false {p : Char → Bool} {c : Char} {cs : Str}
    (h : p c = false) : (c :: cs).takeWhile p = [] :=
  List.takeWhile_cons_of_neg (by simp [h])

theorem takeWhile_nil_of_headNotDig {l : Str} (h : headNotDig l) :
    l.takeWhile isDig = [] := by
  cases l with
  | nil => rfl
  | cons c cs => exact takeWhile_of_head_false (h c rfl)

theorem dropWhile_id_of_headNotDig {l : Str} (h : headNotDig l) :
    l.dropWhile isDig = l := by
  cases l with
  | nil => rfl
  | cons c cs => exact dropWhile_of_head_false (h c rfl)

theorem headNotDig_of_takeWhile_empty {l : Str}
    (h : (l.takeWhile isDig).isEmpty = true) : headNotDig l := by
  cases l with
  | nil => exact headNotDig_nil
  | cons c cs =>
    apply headNotDig_cons
    by_cases hc : isDig c
    · rw [List.takeWhile_cons_of_pos hc] at h
      simp at h
    · exact Bool.eq_false_iff.mpr hc

theorem takeWhile_all_append {p : Char → Bool} {xs ys : Str}
    (h : ∀ c ∈ xs, p c = true) :
    (xs ++ ys).takeWhile p = xs ++ ys.takeWhile p := by
  rw [List.takeWhile_append, List.takeWhile_eq_self_iff.mpr h, if_pos rfl]

theorem dropWhile_all_append {p : Char → Bool} {xs ys : Str}
    (h : ∀ c ∈ xs, p c = true) :
    (xs ++ ys).dropWhile p = ys.dropWhile p := by
  have hnil : xs.dropWhile p = [] := by
    induction xs with
    | nil => rfl
    | cons a as ih =>
      rw [List.dropWhile_cons_of_pos (h a (List.mem_cons_self a as))]
      exact ih (fun c hc => h c (List.mem_cons_of_mem a hc))
  rw [List.dropWhile_append, hnil]
  simp

theorem renderNat_head_dig (m : Nat) :
    ∃ d ds, renderNat m = d :: ds ∧ isDig d = true := by
  cases hr : renderNat m with
  | nil => exact absurd hr (renderNat_ne_nil m)
  | cons d ds =>
    refine ⟨d, ds, rfl, ?_⟩
    apply renderNat_all_dig m
    rw [hr]
    exact List.mem_cons_self d ds

/-- Computation of the `\s+(\d+)` matcher on the sanitizer's own output
`" " ++ digits-of-m ++ T`, for `T` not starting with a digit. -/
theorem matchWsDigits_spec (m : Nat) {T : Str} (hT : headNotDig T) :
    matchWsDigits (' ' :: (renderNat m ++ T)) = some (m, T) := by
  rcases renderNat_head_dig m with ⟨d, ds, hrd, hd⟩
  have hws : isPyWs ' ' = true := by decide
  have hdrop : (renderNat m ++ T).dropWhile isPyWs = renderNat m ++ T := by
    rw [hrd]
    exact dropWhile_of_head_false (ws_of_dig_false hd)
  have htake : (renderNat m ++ T).takeWhile isDig = renderNat m := by
    rw [takeWhile_all_append (renderNat_all_dig m), takeWhile_nil_of_headNotDig hT,
      List.append_nil]
  have hdrop2 : (renderNat m ++ T).dropWhile isDig = T := by
    rw [dropWhile_all_append (renderNat_all_dig m), dropWhile_id_of_headNotDig hT]
  have hne : (renderNat m).isEmpty = false := by
    rw [hrd]
    rfl
  simp only [matchWsDigits, hws, if_true, hdrop, htake, hdrop2, hne]
  rw [if_neg (by simp), digitsToNat_renderNat]

/-- Computation of the full matcher on the sanitizer's replacement text
`"LIMIT " ++ digits-of-m ++ T`. -/
theorem matchLimitNum_limitStr (m : Nat) {T : Str} (hT : headNotDig T) :
    matchLimitNum (limitStr m ++ T) = some (m, T) := by
  show matchLimitNum
      ('L' :: 'I' :: 'M' :: 'I' :: 'T' :: ' ' :: (renderNat m ++ T)) = some (m, T)
  simp only [matchLimitNum, afterL, afterLI, afterLIM, afterLIMI,
    show upC 'L' = 'L' from by decide, show upC 'I' = 'I' from by decide,
    show upC 'M' = 'M' from by decide, show upC 'T' = 'T' from by decide,
    if_true, if_pos rfl]
  exact matchWsDigits_spec m hT

theorem matchLimitNum_some_L {c : Char} {cs : Str} {x : Nat × Str}
    (h : matchLimitNum (c :: cs) = some x) : upC c = 'L' := by
  simp only [matchLimitNum] at h
  by_cases hc : upC c = 'L'
  · exact hc
  · rw [if_neg hc] at h
    exact absurd h (by simp)

theorem matchWsDigits_rest {l : Str} {v : Nat} {rest : Str}
    (h : matchWsDigits l = some (v, rest)) : headNotDig rest := by
  rcases matchWsDigits_some_elim h with ⟨c, cs, rfl, _, _, _, hrest⟩
  subst hrest
  intro d hd
  exact dropWhile_head_not isDig _ d hd

theorem afterLIMI_some {l : Str} {x : Nat × Str} (h : afterLIMI l = some x) :
    ∃ c cs, l = c :: cs ∧ upC c = 'T' ∧ matchWsDigits cs = some x := by
  match l with
  | [] => simp [afterLIMI] at h
  | c :: cs =>
    simp only [afterLIMI] at h
    by_cases hc : upC c = 'T'
    · rw [if_pos hc] at h
      exact ⟨c, cs, rfl, hc, h⟩
    · rw [if_neg hc] at h
      exact absurd h (by simp)

theorem afterLIM_some {l : Str} {x : Nat × Str} (h : afterLIM l = some x) :
    ∃ c cs, l = c :: cs ∧ upC c = 'I' ∧ afterLIMI cs = some x := by
  match l with
  | [] => simp [afterLIM] at h
  | c :: cs =>
    simp only [afterLIM] at h
    by_cases hc : upC c = 'I'
    · rw [if_pos hc] at h
      exact ⟨c, cs, rfl, hc, h⟩
    · rw [if_neg hc] at h
      exact absurd h (by simp)

theorem afterLI_some {l : Str} {x : Nat × Str} (h : afterLI l = some x) :
    ∃ c cs, l = c :: cs ∧ upC c = 'M' ∧ afterLIM cs = some x := by
  match l with
  | [] => simp [afterLI] at h
  | c :: cs =>
    simp only [afterLI] at h
    by_cases hc : upC c = 'M'
    · rw [if_pos hc] at h
      exact ⟨c, cs, rfl, hc, h⟩
    · rw [if_neg hc] at h
      exact absurd h (by simp)

theorem afterL_some {l : Str} {x : Nat × Str} (h : afterL l = some x) :
    ∃ c cs, l = c :: cs ∧ upC c = 'I' ∧ afterLI cs = some x := by
  match l with
  | [] => simp [afterL] at h
  | c :: cs =>
    simp only [afterL] at h
    by_cases hc : upC c = 'I'
    · rw [if_pos hc] at h
      exact ⟨c, cs, rfl, hc, h⟩
    · rw [if_neg hc] at h
      exact absurd h (by simp)

/-- A successful match decomposes the text as the five literal `LIMIT`
letters (case-insensitively) followed by `\s+\d+`. -/
theorem matchLimitNum_decomp {l : Str} {x : Nat × Str}
    (h : matchLimitNum l = some x) :
    ∃ c0 c1 c2 c3 c4 t, l = c0 :: c1 :: c2 :: c3 :: c4 :: t ∧
      upC c0 = 'L' ∧ upC c1 = 'I' ∧ upC c2 = 'M' ∧ upC c3 = 'I' ∧
      upC c4 = 'T' ∧ matchWsDigits t = some x := by
  match l with
  | [] => simp [matchLimitNum] at h
  | c :: cs =>
    have hc := matchLimitNum_some_L h
    simp only [matchLimitNum, if_pos hc] at h
    rcases afterL_some h with ⟨c1, cs1, rfl, hc1, h1⟩
    rcases afterLI_some h1 with ⟨c2, cs2, rfl, hc2, h2⟩
    rcases afterLIM_some h2 with ⟨c3, cs3, rfl, hc3, h3⟩
    rcases afterLIMI_some h3 with ⟨c4, cs4, rfl, hc4, h4⟩
    exact ⟨c, c1, c2, c3, c4, cs4, rfl, hc, hc1, hc2, hc3, hc4, h4⟩

theorem matchLimitNum_rest {l : Str} {v : Nat} {rest : Str}
    (h : matchLimitNum l = some (v, rest)) : headNotDig rest := by
  rcases matchLimitNum_decomp h with ⟨_, _, _, _, _, t, _, _, _, _, _, _, h6⟩
  exact matchWsDigits_rest h6

theorem headNotDig_replaceAllLimit {m : Nat} {T : Str} (hT : headNotDig T) :
    headNotDig (replaceAllLimit m T) := by
  cases T with
  | nil =>
    rw [replaceAllLimit_nil]
    exact headNotDig_nil
  | cons c cs =>
    cases hm : matchLimitNum (c :: cs) with
    | some x =>
      rcases x with ⟨v, rest⟩
      rw [replaceAllLimit_cons_some hm]
      exact headNotDig_cons (by decide)
    | none =>
      rw [replaceAllLimit_cons_none hm]
      exact headNotDig_cons (hT c rfl)

/-- Skipping whitespace commutes with the global `re.sub` replacement:
a replaced region begins with `L`, which is not whitespace. -/
theorem dropWhile_ws_replaceAllLimit (m : Nat) : ∀ l : Str,
    (replaceAllLimit m l).dropWhile isPyWs =
      replaceAllLimit m (l.dropWhile isPyWs) := by
  have H : ∀ n, ∀ l : Str, l.length = n →
      (replaceAllLimit m l).dropWhile isPyWs =
        replaceAllLimit m (l.dropWhile isPyWs) := ?_
  · intro l
    exact H l.length l rfl
  intro n
  induction n using Nat.strong_induction_on with
  | _ n ih =>
    intro l hn
    cases l with
    | nil =>
      simp only [List.dropWhile_nil, replaceAllLimit_nil]
    | cons c cs =>
      cases hm : matchLimitNum (c :: cs) with
      | some x =>
        rcases x with ⟨v, rest⟩
        rw [replaceAllLimit_cons_some hm]
        have hLc := matchLimitNum_some_L hm
        have hcw : isPyWs c = false := by
          by_cases hw : isPyWs c
          · exfalso
            exact toNat_upC_ws_ne hw 'L' (by decide) hLc
          · exact Bool.eq_false_iff.mpr hw
        rw [dropWhile_of_head_false hcw, replaceAllLimit_cons_some hm]
        show ('L' :: ('I' :: 'M' :: 'I' :: 'T' :: ' ' :: renderNat m ++
          replaceAllLimit m rest)).dropWhile isPyWs = _
        rw [dropWhile_of_head_false (by decide)]
        rfl
      | none =>
        rw [replaceAllLimit_cons_none hm]
        by_cases hw : isPyWs c
        · rw [List.dropWhile_cons_of_pos (by simp [hw]),
            List.dropWhile_cons_of_pos (by simp [hw])]
          exact ih cs.length (by rw [← hn]; simp) cs rfl
        · rw [dropWhile_of_head_false (Bool.eq_false_iff.mpr hw),
            dropWhile_of_head_false (Bool.eq_false_iff.mpr hw),
            replaceAllLimit_cons_none hm]

theorem matchWsDigits_none_replaceAllLimit {m : Nat} {l : Str}
    (h : matchWsDigits l = none) :
    matchWsDigits (replaceAllLimit m l) = none := by
  cases l with
  | nil =>
    rw [replaceAllLimit_nil]
    rfl
  | cons c cs =>
    cases hm : matchLimitNum (c :: cs) with
    | some x =>
      rcases x with ⟨v, rest⟩
      rw [replaceAllLimit_cons_some hm]
      show matchWsDigits ('L' ::
        ('I' :: 'M' :: 'I' :: 'T' :: ' ' :: renderNat m ++
          replaceAllLimit m rest)) = none
      simp [matchWsDigits, show isPyWs 'L' = false from by decide]
    | none =>
      rw [replaceAllLimit_cons_none hm]
      by_cases hw : isPyWs c = true
      · have hempty : ((cs.dropWhile isPyWs).takeWhile isDig).isEmpty = true := by
          by_cases he : ((cs.dropWhile isPyWs).takeWhile isDig).isEmpty = true
          · exact he
          · exfalso
            simp only [matchWsDigits, if_pos hw, if_neg he] at h
            exact Option.noConfusion h
        have hnd : headNotDig (cs.dropWhile isPyWs) :=
          headNotDig_of_takeWhile_empty hempty
        have hcond :
            (((replaceAllLimit m cs).dropWhile isPyWs).takeWhile isDig).isEmpty
              = true := by
          rw [dropWhile_ws_replaceAllLimit,
            takeWhile_nil_of_headNotDig (headNotDig_replaceAllLimit hnd)]
          rfl
        simp only [matchWsDigits, if_pos hw, if_pos hcond]
      · simp [matchWsDigits, Bool.eq_false_iff.mpr hw]

theorem afterLIMI_none_replaceAllLimit {m : Nat} {l : Str}
    (h : afterLIMI l = none) :
    afterLIMI (replaceAllLimit m l) = none := by
  cases l with
  | nil =>
    rw [replaceAllLimit_nil]
    rfl
  | cons c cs =>
    cases hm : matchLimitNum (c :: cs) with
    | some x =>
      rcases x with ⟨v, rest⟩
      rw [replaceAllLimit_cons_some hm]
      show afterLIMI ('L' ::
        ('I' :: 'M' :: 'I' :: 'T' :: ' ' :: renderNat m ++
          replaceAllLimit m rest)) = none
      simp [afterLIMI, show upC 'L' = 'L' from by decide]
    | none =>
      rw [replaceAllLimit_cons_none hm]
      simp only [afterLIMI] at h ⊢
      by_cases hc : upC c = 'T'
      · rw [if_pos hc] at h ⊢
        exact matchWsDigits_none_replaceAllLimit h
      · rw [if_neg hc]

theorem afterLIM_none_replaceAllLimit {m : Nat} {l : Str}
    (h : afterLIM l = none) :
    afterLIM (replaceAllLimit m l) = none := by
  cases l with
  | nil =>
    rw [replaceAllLimit_nil]
    rfl
  | cons c cs =>
    cases hm : matchLimitNum (c :: cs) with
    | some x =>
      rcases x with ⟨v, rest⟩
      rw [replaceAllLimit_cons_some hm]
      show afterLIM ('L' ::
        ('I' :: 'M' :: 'I' :: 'T' :: ' ' :: renderNat m ++
          replaceAllLimit m rest)) = none
      simp [afterLIM, show upC 'L' = 'L' from by decide]
    | none =>
      rw [replaceAllLimit_cons_none hm]
      simp only [afterLIM] at h ⊢
      by_cases hc : upC c = 'I'
      · rw [if_pos hc] at h ⊢
        exact afterLIMI_none_replaceAllLimit h
      · rw [if_neg hc]

theorem afterLI_none_replaceAllLimit {m : Nat} {l : Str}
    (h : afterLI l = none) :
    afterLI (replaceAllLimit m l) = none := by
  cases l with
  | nil =>
    rw [replaceAllLimit_nil]
    rfl
  | cons c cs =>
    cases hm : matchLimitNum (c :: cs) with
    | some x =>
      rcases x with ⟨v, rest⟩
      rw [replaceAllLimit_cons_some hm]
      show afterLI ('L' ::
        ('I' :: 'M' :: 'I' :: 'T' :: ' ' :: renderNat m ++
          replaceAllLimit m rest)) = none
      simp [afterLI, show upC 'L' = 'L' from by decide]
    | none =>
      rw [replaceAllLimit_cons_none hm]
      simp only [afterLI] at h ⊢
      by_cases hc : upC c = 'M'
      · rw [if_pos hc] at h ⊢
        exact afterLIM_none_replaceAllLimit h
      · rw [if_neg hc]

theorem afterL_none_replaceAllLimit {m : Nat} {l : Str}
    (h : afterL l = none) :
    afterL (replaceAllLimit m l) = none := by
  cases l with
  | nil =>
    rw [replaceAllLimit_nil]
    rfl
  | cons c cs =>
    cases hm : matchLimitNum (c :: cs) with
    | some x =>
      rcases x with ⟨v, rest⟩
      rw [replaceAllLimit_cons_some hm]
      show afterL ('L' ::
        ('I' :: 'M' :: 'I' :: 'T' :: ' ' :: renderNat m ++
          replaceAllLimit m rest)) = none
      simp [afterL, show upC 'L' = 'L' from by decide]
    | none =>
      rw [replaceAllLimit_cons_none hm]
      simp only [afterL] at h ⊢
      by_cases hc : upC c = 'I'
      · rw [if_pos hc] at h ⊢
        exact afterLI_none_replaceAllLimit h
      · rw [if_neg hc]

/-- Positions with no match keep having no match after the global
replacement: a failing scan can only enter a replaced region in its literal
or whitespace phase, and the region starts with `LIMIT` either way. -/
theorem matchLimitNum_none_replaceAllLimit {m : Nat} {l : Str}
    (h : matchLimitNum l = none) :
    matchLimitNum (replaceAllLimit m l) = none := by
  cases l with
  | nil =>
    rw [replaceAllLimit_nil]
    rfl
  | cons c cs =>
    rw [replaceAllLimit_cons_none h]
    simp only [matchLimitNum] at h ⊢
    by_cases hc : upC c = 'L'
    · rw [if_pos hc] at h ⊢
      exact afterL_none_replaceAllLimit h
    · rw [if_neg hc]

/-- The central `re.sub` lemma: after replacing every `LIMIT\s+\d+` with
`LIMIT m`, the matches of the result are exactly the original matches, each
with value `m`. -/
theorem limitMatches_replaceAllLimit (m : Nat) : ∀ l : Str,
    limitMatches (replaceAllLimit m l) =
      (limitMatches l).map (fun _ => m) := by
  have H : ∀ n, ∀ l : Str, l.length = n →
      limitMatches (replaceAllLimit m l) =
        (limitMatches l).map (fun _ => m) := ?_
  · intro l
    exact H l.length l rfl
  intro n
  induction n using Nat.strong_induction_on with
  | _ n ih =>
    intro l hn
    cases l with
    | nil =>
      rw [replaceAllLimit_nil, limitMatches_nil]
      rfl
    | cons c cs =>
      cases hm : matchLimitNum (c :: cs) with
      | some x =>
        rcases x with ⟨v, rest⟩
        rw [replaceAllLimit_cons_some hm]
        have hrest := headNotDig_replaceAllLimit (m := m) (matchLimitNum_rest hm)
        have hmatch := matchLimitNum_limitStr m hrest
        rw [limitMatches_cons_some hm]
        have hshape : limitStr m ++ replaceAllLimit m rest =
            'L' :: ('I' :: 'M' :: 'I' :: 'T' :: ' ' ::
              (renderNat m ++ replaceAllLimit m rest)) := by
          simp [limitStr]
        rw [hshape] at hmatch ⊢
        rw [limitMatches_cons_some hmatch]
        have := ih rest.length (by rw [← hn]; exact matchLimitNum_length hm) rest rfl
        rw [this]
        rfl
      | none =>
        rw [replaceAllLimit_cons_none hm]
        have h2 : matchLimitNum (c :: replaceAllLimit m cs) = none := by
          have := matchLimitNum_none_replaceAllLimit (m := m) hm
          rw [replaceAllLimit_cons_none hm] at this
          exact this
        rw [limitMatches_cons_none h2, limitMatches_cons_none hm]
        exact ih cs.length (by rw [← hn]; simp) cs rfl

theorem upS_cons (c : Char) (cs : Str) : upS (c :: cs) = upC c :: upS cs := rfl

theorem upS_append (a b : Str) : upS (a ++ b) = upS a ++ upS b :=
  List.map_append upC a b

/-- If the uppercased text does not contain `LIMIT` as a substring, then a
text made of it followed by `" LIMIT m;"`-style tail has exactly the
matches of the tail: no match can start inside the clean part, because the
five literal letters would either lie inside it (an occurrence) or run into
the following space. -/
theorem limitMatches_append_clean {r : Str} : ∀ s : Str,
    containsSub (upS s) LIMITU = false →
    limitMatches (s ++ ' ' :: r) = limitMatches (' ' :: r) := by
  intro s
  induction s with
  | nil =>
    intro _
    rfl
  | cons c s2 ih =>
    intro h
    have hsplit : LIMITU.isPrefixOf (upC c :: upS s2) = false ∧
        containsSub (upS s2) LIMITU = false := by
      rw [upS_cons] at h
      simp only [containsSub, Bool.or_eq_false_iff] at h
      exact h
    have hnone : matchLimitNum (c :: (s2 ++ ' ' :: r)) = none := by
      cases hm : matchLimitNum (c :: (s2 ++ ' ' :: r)) with
      | none => rfl
      | some x =>
        exfalso
        rcases matchLimitNum_decomp hm with
          ⟨c0, c1, c2, c3, c4, t, heq, h0, h1, h2, h3, h4, _⟩
        match s2, hsplit, heq with
        | [], hsplit, heq =>
          simp only [List.nil_append, List.cons.injEq] at heq
          rcases heq with ⟨he0, he1, _⟩
          rw [← he1] at h1
          exact absurd h1 (by decide)
        | [a], hsplit, heq =>
          simp only [List.cons_append, List.nil_append, List.cons.injEq] at heq
          rcases heq with ⟨he0, he1, he2, _⟩
          rw [← he2] at h2
          exact absurd h2 (by decide)
        | [a, b], hsplit, heq =>
          simp only [List.cons_append, List.nil_append, List.cons.injEq] at heq
          rcases heq with ⟨he0, he1, he2, he3, _⟩
          rw [← he3] at h3
          exact absurd h3 (by decide)
        | [a, b, d], hsplit, heq =>
          simp only [List.cons_append, List.nil_append, List.cons.injEq] at heq
          rcases heq with ⟨he0, he1, he2, he3, he4, _⟩
          rw [← he4] at h4
          exact absurd h4 (by decide)
        | a :: b :: d :: e :: s5, hsplit, heq =>
          simp only [List.cons_append, List.cons.injEq] at heq
          rcases heq with ⟨he0, he1, he2, he3, he4, _⟩
          have hpre : LIMITU.isPrefixOf
              (upC c :: upS (a :: b :: d :: e :: s5)) = true := by
            have e0 : upC c = 'L' := by rw [he0]; exact h0
            have e1 : upC a = 'I' := by rw [he1]; exact h1
            have e2 : upC b = 'M' := by rw [he2]; exact h2
            have e3 : upC d = 'I' := by rw [he3]; exact h3
            have e4 : upC e = 'T' := by rw [he4]; exact h4
            simp only [upS_cons]
            rw [e0, e1, e2, e3, e4]
            simp [LIMITU, List.isPrefixOf]
          rw [hpre] at hsplit
          exact absurd hsplit.1 (by simp)
    rw [List.cons_append, limitMatches_cons_none hnone]
    exact ih hsplit.2

/-- A text with at least one `LIMIT\s+\d+` match contains `LIMIT` (upper-cased)
as a substring. -/
theorem containsSub_of_limitMatches_ne {l : Str} (h : limitMatches l ≠ []) :
    containsSub (upS l) LIMITU = true := by
  induction l with
  | nil =>
    rw [limitMatches_nil] at h
    exact absurd rfl h
  | cons c cs ih =>
    cases hm : matchLimitNum (c :: cs) with
    | some x =>
      rcases x with ⟨v, rest⟩
      rcases matchLimitNum_decomp hm with
        ⟨c0, c1, c2, c3, c4, t, heq, h0, h1, h2, h3, h4, _⟩
      rw [heq]
      show (LIMITU.isPrefixOf (upC c0 :: upS (c1 :: c2 :: c3 :: c4 :: t)) ||
        containsSub (upS (c1 :: c2 :: c3 :: c4 :: t)) LIMITU) = true
      have hl : LIMITU.isPrefixOf
          (upC c0 :: upS (c1 :: c2 :: c3 :: c4 :: t)) = true := by
        simp only [upS_cons]
        rw [h0, h1, h2, h3, h4]
        simp [LIMITU, List.isPrefixOf]
      rw [hl, Bool.true_or]
    | none =>
      rw [limitMatches_cons_none hm] at h
      have := ih h
      show (LIMITU.isPrefixOf (upC c :: upS cs) ||
        containsSub (upS cs) LIMITU) = true
      rw [this, Bool.or_true]

/-! ### Case-invariance of the matcher (`re.IGNORECASE`)

`_check_limit` runs the regex over `sql.upper()`, `_sanitize_sql` runs it
with `re.IGNORECASE` over the text itself; both coincide. -/

theorem dropWhile_upS {p : Char → Bool} (hp : ∀ c, p (upC c) = p c)
    (l : Str) : (upS l).dropWhile p = upS (l.dropWhile p) := by
  induction l with
  | nil => rfl
  | cons c cs ih =>
    rw [upS_cons]
    by_cases hc : p c = true
    · rw [List.dropWhile_cons_of_pos (by rw [hp]; exact hc),
        List.dropWhile_cons_of_pos hc]
      exact ih
    · rw [List.dropWhile_cons_of_neg (by rw [hp]; simp [hc]),
        List.dropWhile_cons_of_neg (by simp [hc]), upS_cons]

theorem takeWhile_upS {p : Char → Bool} (hp : ∀ c, p (upC c) = p c)
    (l : Str) : (upS l).takeWhile p = upS (l.takeWhile p) := by
  induction l with
  | nil => rfl
  | cons c cs ih =>
    rw [upS_cons]
    by_cases hc : p c = true
    · rw [List.takeWhile_cons_of_pos (by rw [hp]; exact hc),
        List.takeWhile_cons_of_pos hc, upS_cons, ih]
    · rw [List.takeWhile_cons_of_neg (by rw [hp]; simp [hc]),
        List.takeWhile_cons_of_neg (by simp [hc])]
      rfl

theorem upS_of_all_dig {l : Str} (h : ∀ c ∈ l, isDig c = true) :
    upS l = l := by
  unfold upS
  rw [List.map_congr_left (fun c hc => upC_of_dig (h c hc))]
  exact List.map_id _

theorem matchWsDigits_upS (l : Str) :
    matchWsDigits (upS l) =
      (matchWsDigits l).map (fun p => (p.1, upS p.2)) := by
  cases l with
  | nil => rfl
  | cons c cs =>
    rw [upS_cons]
    simp only [matchWsDigits, isPyWs_upC]
    by_cases hw : isPyWs c = true
    · rw [if_pos hw, if_pos hw]
      rw [dropWhile_upS isPyWs_upC, takeWhile_upS (fun c => by rw [isDig_upC]),
        dropWhile_upS (fun c => by rw [isDig_upC])]
      have hdig : upS ((cs.dropWhile isPyWs).takeWhile isDig) =
          (cs.dropWhile isPyWs).takeWhile isDig :=
        upS_of_all_dig (fun c hc => List.mem_takeWhile_imp hc)
      rw [hdig]
      by_cases he : ((cs.dropWhile isPyWs).takeWhile isDig).isEmpty = true
      · rw [if_pos he, if_pos he]
        rfl
      · rw [if_neg he, if_neg he]
        rfl
    · rw [if_neg hw, if_neg hw]
      rfl

theorem afterLIMI_upS (l : Str) :
    afterLIMI (upS l) = (afterLIMI l).map (fun p => (p.1, upS p.2)) := by
  cases l with
  | nil => rfl
  | cons c cs =>
    rw [upS_cons]
    simp only [afterLIMI, upC_upC]
    by_cases hc : upC c = 'T'
    · rw [if_pos hc, if_pos hc]
      exact matchWsDigits_upS cs
    · rw [if_neg hc, if_neg hc]
      rfl

theorem afterLIM_upS (l : Str) :
    afterLIM (upS l) = (afterLIM l).map (fun p => (p.1, upS p.2)) := by
  cases l with
  | nil => rfl
  | cons c cs =>
    rw [upS_cons]
    simp only [afterLIM, upC_upC]
    by_cases hc : upC c = 'I'
    · rw [if_pos hc, if_pos hc]
      exact afterLIMI_upS cs
    · rw [if_neg hc, if_neg hc]
      rfl

theorem afterLI_upS (l : Str) :
    afterLI (upS l) = (afterLI l).map (fun p => (p.1, upS p.2)) := by
  cases l with
  | nil => rfl
  | cons c cs =>
    rw [upS_cons]
    simp only [afterLI, upC_upC]
    by_cases hc : upC c = 'M'
    · rw [if_pos hc, if_pos hc]
      exact afterLIM_upS cs
    · rw [if_neg hc, if_neg hc]
      rfl

theorem afterL_upS (l : Str) :
    afterL (upS l) = (afterL l).map (fun p => (p.1, upS p.2)) := by
  cases l with
  | nil => rfl
  | cons c cs =>
    rw [upS_cons]
    simp only [afterL, upC_upC]
    by_cases hc : upC c = 'I'
    · rw [if_pos hc, if_pos hc]
      exact afterLI_upS cs
    · rw [if_neg hc, if_neg hc]
      rfl

theorem matchLimitNum_upS (l : Str) :
    matchLimitNum (upS l) = (matchLimitNum l).map (fun p => (p.1, upS p.2)) := by
  cases l with
  | nil => rfl
  | cons c cs =>
    rw [upS_cons]
    simp only [matchLimitNum, upC_upC]
    by_cases hc : upC c = 'L'
    · rw [if_pos hc, if_pos hc]
      exact afterL_upS cs
    · rw [if_neg hc, if_neg hc]
      rfl

/-- The matches of the upper-cased text are the matches of the text
(`re.IGNORECASE`). -/
theorem limitMatches_upS : ∀ l : Str, limitMatches (upS l) = limitMatches l := by
  have H : ∀ n, ∀ l : Str, l.length = n →
      limitMatches (upS l) = limitMatches l := ?_
  · intro l
    exact H l.length l rfl
  intro n
  induction n using Nat.strong_induction_on with
  | _ n ih =>
    intro l hn
    cases l with
    | nil => rfl
    | cons c cs =>
      cases hm : matchLimitNum (c :: cs) with
      | some x =>
        rcases x with ⟨v, rest⟩
        have h2 : matchLimitNum (upS (c :: cs)) = some (v, upS rest) := by
          rw [matchLimitNum_upS, hm]
          rfl
        rw [upS_cons] at h2
        rw [upS_cons, limitMatches_cons_some h2, limitMatches_cons_some hm]
        have hlen : rest.length < n := by
          rw [← hn]
          exact matchLimitNum_length hm
        rw [ih rest.length hlen rest rfl]
      | none =>
        have h2 : matchLimitNum (upS (c :: cs)) = none := by
          rw [matchLimitNum_upS, hm]
          rfl
        rw [upS_cons] at h2
        rw [upS_cons, limitMatches_cons_none h2, limitMatches_cons_none hm]
        exact ih cs.length (by rw [← hn]; simp) cs rfl

/-! ## Word scanning (regex `\b...\b` for word-only patterns)

For a pattern that is a single `\w`-word, `\bWORD\b` matches exactly the
maximal `\w`-runs of the text equal to it; `wordsOf` lists those runs. -/

def wordsAux : Str → Str → List Str
  | [], acc => if acc.isEmpty then [] else [acc.reverse]
  | c :: cs, acc =>
    if isWordC c then wordsAux cs (c :: acc)
    else if acc.isEmpty then wordsAux cs []
    else acc.reverse :: wordsAux cs []

/-- The maximal `\w`-character runs of the text, in order. -/
def wordsOf (l : Str) : List Str := wordsAux l []

/-- First-occurrence deduplication (models Python `list(set(...))`; the set
iteration order is unspecified in Python, the model fixes first-occurrence
order — no claim depends on the order inside this message). -/
def dedupAux : List String → List String → List String
  | [], _ => []
  | x :: xs, seen =>
    if seen.contains x then dedupAux xs seen
    else x :: dedupAux xs (x :: seen)

def dedupFirst (l : List String) : List String := dedupAux l []

def joinComma : List String → String
  | [] => ""
  | [x] => x
  | x :: y :: xs => x ++ ", " ++ joinComma (y :: xs)

/-- The single-quote character (written numerically). -/
def quoteC : Char := Char.ofNatAux 39 (Or.inl (by omega))

/-- The single-quote as a one-character string for building messages. -/
def sqS : String := String.mk [quoteC]

/-- The newline character (not matched by `.` in the block-comment regex). -/
def nlC : Char := Char.ofNatAux 10 (Or.inl (by omega))

/-! ## The injection-pattern scan (`_check_sql_injection_patterns`)

Each regex of the Python list is compiled to a position matcher; the scan
tries every position (`re.search`).  `\s`/`\d`/`[^']` are disjoint from the
characters that follow them in each pattern, so greedy maximal munch is
exact. -/

def eatC (ch : Char) : Str → Option Str
  | c :: cs => if c = ch then some cs else none
  | [] => none

def eatCI (ch : Char) : Str → Option Str
  | c :: cs => if upC c = ch then some cs else none
  | [] => none

def eatWsPlus : Str → Option Str
  | c :: cs => if isPyWs c then some (cs.dropWhile isPyWs) else none
  | [] => none

def eatDigits : Str → Option Str
  | c :: cs => if isDig c then some (cs.dropWhile isDig) else none
  | [] => none

def eatHex : Str → Option Str
  | c :: cs => if isHexDig c then some (cs.dropWhile isHexDig) else none
  | [] => none

def eatNonQuote : Str → Option Str
  | c :: cs =>
    if c = quoteC then none
    else some (cs.dropWhile (fun d => !(d = quoteC)))
  | [] => none

/-- `;\s*--` : statement termination with comment. -/
def matchP1At (l : Str) : Bool :=
  (do
    let r ← eatC (Char.ofNatAux 59 (Or.inl (by omega))) l
    let r := r.dropWhile isPyWs
    let r ← eatC (Char.ofNatAux 45 (Or.inl (by omega))) r
    let _ ← eatC (Char.ofNatAux 45 (Or.inl (by omega))) r
    pure ()).isSome

/-- `'\s*OR\s+'1'\s*=\s*'1` : classic quoted OR injection. -/
def matchP2At (l : Str) : Bool :=
  (do
    let r ← eatC quoteC l
    let r := r.dropWhile isPyWs
    let r ← eatCI (Char.ofNat 79) r
    let r ← eatCI (Char.ofNat 82) r
    let r ← eatWsPlus r
    let r ← eatC quoteC r
    let r ← eatC (Char.ofNat 49) r
    let r ← eatC quoteC r
    let r := r.dropWhile isPyWs
    let r ← eatC (Char.ofNat 61) r
    let r := r.dropWhile isPyWs
    let r ← eatC quoteC r
    let _ ← eatC (Char.ofNat 49) r
    pure ()).isSome

/-- `'\s*OR\s+1\s*=\s*1` : numeric OR injection. -/
def matchP3At (l : Str) : Bool :=
  (do
    let r ← eatC quoteC l
    let r := r.dropWhile isPyWs
    let r ← eatCI (Char.ofNat 79) r
    let r ← eatCI (Char.ofNat 82) r
    let r ← eatWsPlus r
    let r ← eatC (Char.ofNat 49) r
    let r := r.dropWhile isPyWs
    let r ← eatC (Char.ofNat 61) r
    let r := r.dropWhile isPyWs
    let _ ← eatC (Char.ofNat 49) r
    pure ()).isSome

/-- `OR\s+'[^']+'\s*=\s*'[^']+'` : generic OR string comparison. -/
def matchP4At (l : Str) : Bool :=
  (do
    let r ← eatCI (Char.ofNat 79) l
    let r ← eatCI (Char.ofNat 82) r
    let r ← eatWsPlus r
    let r ← eatC quoteC r
    let r ← eatNonQuote r
    let r ← eatC quoteC r
    let r := r.dropWhile isPyWs
    let r ← eatC (Char.ofNat 61) r
    let r := r.dropWhile isPyWs
    let r ← eatC quoteC r
    let r ← eatNonQuote r
    let _ ← eatC quoteC r
    pure ()).isSome

/-- `OR\s+\d+\s*=\s*\d+` : generic OR numeric comparison. -/
def matchP5At (l : Str) : Bool :=
  (do
    let r ← eatCI (Char.ofNat 79) l
    let r ← eatCI (Char.ofNat 82) r
    let r ← eatWsPlus r
    let r ← eatDigits r
    let r := r.dropWhile isPyWs
    let r ← eatC (Char.ofNat 61) r
    let r := r.dropWhile isPyWs
    let _ ← eatDigits r
    pure ()).isSome

/-- `UNION\s+SELECT` : union-based injection. -/
def matchP6At (l : Str) : Bool :=
  (do
    let r ← eatCI (Char.ofNat 85) l
    let r ← eatCI (Char.ofNat 78) r
    let r ← eatCI (Char.ofNat 73) r
    let r ← eatCI (Char.ofNat 79) r
    let r ← eatCI (Char.ofNat 78) r
    let r ← eatWsPlus r
    let r ← eatCI (Char.ofNat 83) r
    let r ← eatCI (Char.ofNat 69) r
    let r ← eatCI (Char.ofNat 76) r
    let r ← eatCI (Char.ofNat 69) r
    let r ← eatCI (Char.ofNat 67) r
    let _ ← eatCI (Char.ofNat 84) r
    pure ()).isSome

/-- `EXEC\s*\(` : execute function. -/
def matchP7At (l : Str) : Bool :=
  (do
    let r ← eatCI (Char.ofNat 69) l
    let r ← eatCI (Char.ofNat 88) r
    let r ← eatCI (Char.ofNat 69) r
    let r ← eatCI (Char.ofNat 67) r
    let r := r.dropWhile isPyWs
    let _ ← eatC (Char.ofNat 40) r
    pure ()).isSome

/-- `xp_` : SQL Server extended procedures (case-insensitive). -/
def matchP8At (l : Str) : Bool :=
  (do
    let r ← eatCI (Char.ofNat 88) l
    let r ← eatCI (Char.ofNat 80) r
    let _ ← eatC (Char.ofNat 95) r
    pure ()).isSome

/-- Search for `*/` before the end of the line (regex `.` excludes `\n`). -/
def starSlashSearch : Str → Bool
  | c1 :: c2 :: cs =>
    if c1 = Char.ofNat 42 ∧ c2 = Char.ofNat 47 then true
    else if c1 = nlC then false
    else starSlashSearch (c2 :: cs)
  | _ => false

/-- `/\*.*\*/` : block comment (potential obfuscation). -/
def matchP9At (l : Str) : Bool :=
  match l with
  | c1 :: c2 :: rest =>
    if c1 = Char.ofNat 47 ∧ c2 = Char.ofNat 42 then starSlashSearch rest
    else false
  | _ => false

/-- `CHAR\s*\(\s*\d+\s*\)` : character-encoding bypass. -/
def matchP10At (l : Str) : Bool :=
  (do
    let r ← eatCI (Char.ofNat 67) l
    let r ← eatCI (Char.ofNat 72) r
    let r ← eatCI (Char.ofNat 65) r
    let r ← eatCI (Char.ofNat 82) r
    let r := r.dropWhile isPyWs
    let r ← eatC (Char.ofNat 40) r
    let r := r.dropWhile isPyWs
    let r ← eatDigits r
    let r := r.dropWhile isPyWs
    let _ ← eatC (Char.ofNat 41) r
    pure ()).isSome

/-- `0x[0-9a-fA-F]+` : hex encoding. -/
def matchP11At (l : Str) : Bool :=
  (do
    let r ← eatC (Char.ofNat 48) l
    let r ← eatCI (Char.ofNat 88) r
    let _ ← eatHex r
    pure ()).isSome

/-- `re.search`: try the position matcher at every suffix. -/
def scanAny (m : Str → Bool) : Str → Bool
  | [] => m []
  | c :: cs => m (c :: cs) || scanAny m cs

/-- Some pattern of `injection_patterns` matches somewhere in the text.
(The loop raises on the first matching pattern; since the recorded error
message does not name the pattern, only this disjunction is observable.) -/
def injectionHit (sql : Str) : Bool :=
  scanAny matchP1At sql || scanAny matchP2At sql || scanAny matchP3At sql ||
  scanAny matchP4At sql || scanAny matchP5At sql || scanAny matchP6At sql ||
  scanAny matchP7At sql || scanAny matchP8At sql || scanAny matchP9At sql ||
  scanAny matchP10At sql || scanAny matchP11At sql

/-! ## The validator data model -/

/-- `AllowlistConfig` (query_validator.py).  `allowed_columns` is the
table-to-columns mapping (a Python dict, here an association list). -/
structure AllowlistConfig where
  allowed_tables : List String := []
  allowed_columns : List (String × List String) := []
  blocked_keywords : List String := []
  allowed_functions : List String := []
  max_row_limit : Nat := 10000
  require_limit : Bool := true
  allow_joins : Bool := false
  allow_subqueries : Bool := false
deriving Repr, DecidableEq

/-- The information the validator reads from a `sqlparse` statement tree:
`statement.get_type()`, `_extract_tables(statement)` and
`_extract_columns(statement)`.  `sqlparse` and the token-tree walkers are
abstracted as an oracle producing this record; `none` models
`sqlparse.parse(sql)` returning no statement. -/
structure Parsed where
  stmtType : String
  tables : List String
  columns : List String
deriving Repr, DecidableEq

/-- `ValidationResult` (query_validator.py). -/
structure ValidationResult where
  is_valid : Bool
  errors : List String := []
  warnings : List String := []
  sanitized_sql : Option Str := none
  tables_used : List String := []
  columns_used : List String := []
deriving Repr, DecidableEq

/-- The exceptions raised inside `validate`'s `try` block.  (The module also
defines `ValidationError`, but that is only raised by `_load_config`, which
does file I/O and is outside this embedding.) -/
inductive ValidationExc where
  | securityViolationError (msg : String)
deriving Repr, DecidableEq

def excMessage : ValidationExc → String
  | .securityViolationError m => m

namespace QueryValidator

/-- `_check_statement_type`. -/
def check_statement_type (st : Parsed) (r : ValidationResult) : ValidationResult :=
  if st.stmtType ≠ "SELECT" then
    { r with is_valid := false,
             errors := r.errors ++
               ["Only SELECT statements are allowed, got: " ++ st.stmtType] }
  else r

/-- The findall of the compiled blocked-keyword pattern
`\b(kw1|kw2|...)\b` (case-insensitive): the `\w`-runs of the text equal,
case-insensitively, to some blocked keyword.  (The repository's keywords —
DROP, DELETE, INSERT, ... — are single `\w`-words, for which this is the
exact regex semantics; an empty keyword list compiles to a never-matching
pattern.) -/
def blockedMatches (blocked : List String) (sql : Str) : List String :=
  (wordsOf sql).filterMap (fun w =>
    if blocked.any (fun k => strUp k = strUp (String.mk w)) then
      some (String.mk w)
    else none)

/-- `_check_blocked_keywords`. -/
def check_blocked_keywords (cfg : AllowlistConfig) (sql : Str)
    (r : ValidationResult) : ValidationResult :=
  let ms := blockedMatches cfg.blocked_keywords sql
  if ms.isEmpty then r
  else
    { r with is_valid := false,
             errors := r.errors ++
               ["Blocked keywords found: " ++
                 joinComma (dedupFirst (ms.map strUp))] }

/-- `_check_tables`. -/
def check_tables (cfg : AllowlistConfig) (st : Parsed)
    (r : ValidationResult) : ValidationResult :=
  let r := { r with tables_used := st.tables }
  st.tables.foldl (fun racc t =>
    if cfg.allowed_tables.contains (strUp t) then racc
    else
      { racc with is_valid := false,
                  errors := racc.errors ++ ["Table not in allowlist: " ++ t] })
    r

/-- `_check_columns`. -/
def check_columns (cfg : AllowlistConfig) (st : Parsed)
    (r : ValidationResult) : ValidationResult :=
  let r := { r with columns_used := st.columns }
  if cfg.allowed_columns.isEmpty then r
  else
    r.tables_used.foldl (fun racc t =>
      match List.lookup (strUp t) cfg.allowed_columns with
      | some allowed =>
        st.columns.foldl (fun racc2 col =>
          if col = "*" || col.toList.contains (Char.ofNat 40) then racc2
          else if allowed.contains (strUp col) then racc2
          else
            { racc2 with is_valid := false,
                         errors := racc2.errors ++
                           ["Column " ++ sqS ++ col ++ sqS ++
                             " not in allowlist for table " ++ sqS ++ t ++ sqS] })
          racc
      | none => racc) r

/-- `_check_limit`. -/
def check_limit (cfg : AllowlistConfig) (sql : Str)
    (r : ValidationResult) : ValidationResult :=
  if cfg.require_limit then
    if containsSub (upS sql) LIMITU = false then
      { r with warnings := r.warnings ++
          ["No LIMIT clause found. Adding default LIMIT " ++
            String.mk (renderNat cfg.max_row_limit)] }
    else
      match (limitMatches (upS sql)).head? with
      | some v =>
        if v > cfg.max_row_limit then
          { r with warnings := r.warnings ++
              ["LIMIT " ++ String.mk (renderNat v) ++ " exceeds maximum " ++
                String.mk (renderNat cfg.max_row_limit) ++ ". Will be capped."] }
        else r
      | none => r
  else r

/-- `_check_subqueries`: count of `\bSELECT\b` occurrences (case-insensitive). -/
def selectCount (sql : Str) : Nat :=
  ((wordsOf sql).filter (fun w => strUp (String.mk w) = "SELECT")).length

def check_subqueries (cfg : AllowlistConfig) (sql : Str)
    (r : ValidationResult) : ValidationResult :=
  if !cfg.allow_subqueries then
    if selectCount sql > 1 then
      { r with is_valid := false,
               errors := r.errors ++ ["Subqueries are not allowed"] }
    else r
  else r

/-- `_check_joins`: the join regex
`\b(JOIN|LEFT\s+JOIN|RIGHT\s+JOIN|INNER\s+JOIN|OUTER\s+JOIN|CROSS\s+JOIN)\b`
matches iff the bare `\bJOIN\b` alternative does, i.e. iff some `\w`-run
equals `JOIN` case-insensitively. -/
def joinPresent (sql : Str) : Bool :=
  (wordsOf sql).any (fun w => strUp (String.mk w) = "JOIN")

def check_joins (cfg : AllowlistConfig) (sql : Str)
    (r : ValidationResult) : ValidationResult :=
  if !cfg.allow_joins then
    if joinPresent sql then
      { r with is_valid := false,
               errors := r.errors ++ ["JOIN operations are not allowed"] }
    else r
  else r

/-- `_check_sql_injection_patterns`: on the first matching pattern the check
appends its error, marks the result invalid and raises
`SecurityViolationError` (modelled as the `Except.error` carrying the
mutated result). -/
def check_sql_injection_patterns (sql : Str) (r : ValidationResult) :
    Except ValidationResult ValidationResult :=
  if injectionHit sql then
    .error { r with is_valid := false,
                    errors := r.errors ++
                      ["Potential SQL injection pattern detected"] }
  else .ok r

/-- Python `formatted.rstrip(";")`. -/
def rstripSemis (l : Str) : Str :=
  (l.reverse.dropWhile (fun c => c = Char.ofNat 59)).reverse

/-- Python `.strip()`. -/
def stripPyWs (l : Str) : Str :=
  ((l.dropWhile isPyWs).reverse.dropWhile isPyWs).reverse

/-- `_sanitize_sql`.  `fmt` is the oracle for
`sqlparse.format(sql, reindent=True, keyword_case="upper")`. -/
def sanitize_sql (fmt : Str → Str) (cfg : AllowlistConfig) (sql : Str) : Str :=
  let formatted := fmt sql
  let formatted :=
    if cfg.require_limit && !(containsSub (upS formatted) LIMITU) then
      stripPyWs (rstripSemis formatted) ++
        (' ' :: (limitStr cfg.max_row_limit ++ [Char.ofNat 59]))
    else formatted
  match (limitMatches formatted).head? with
  | some v =>
    if v > cfg.max_row_limit then replaceAllLimit cfg.max_row_limit formatted
    else formatted
  | none => formatted

/-- The body of `validate`'s `try` block: run the checks in source order;
an uncaught `SecurityViolationError` surfaces as `Except.error` (carrying
the result object as mutated so far). -/
def validate_body (parse : Str → Option Parsed) (fmt : Str → Str)
    (cfg : AllowlistConfig) (sql : Str) :
    Except (ValidationExc × ValidationResult) ValidationResult :=
  let result : ValidationResult := { is_valid := true }
  match parse sql with
  | none =>
    .ok { result with is_valid := false,
                      errors := result.errors ++ ["Failed to parse SQL statement"] }
  | some statement =>
    let result := check_statement_type statement result
    let result := check_blocked_keywords cfg sql result
    let result := check_tables cfg statement result
    let result := check_columns cfg statement result
    let result := check_limit cfg sql result
    let result := check_subqueries cfg sql result
    let result := check_joins cfg sql result
    match check_sql_injection_patterns sql result with
    | .error r2 =>
      .error (.securityViolationError "SQL injection pattern detected in query", r2)
    | .ok r3 =>
      .ok (if r3.is_valid then
            { r3 with sanitized_sql := some (sanitize_sql fmt cfg sql) }
          else r3)

/-- `validate`: the `try` body with the `except Exception` handler, which
converts any in-flight exception into a returned invalid result. -/
def validate (parse : Str → Option Parsed) (fmt : Str → Str)
    (cfg : AllowlistConfig) (sql : Str) : ValidationResult :=
  match validate_body parse fmt cfg sql with
  | .ok r => r
  | .error (e, r) =>
    { r with is_valid := false,
             errors := r.errors ++ ["Validation error: " ++ excMessage e] }

end QueryValidator

/-! ## Association-list model of Python `dict`

Python dicts preserve insertion order; assignment to an existing key
replaces in place, assignment to a fresh key appends, `del` removes the
single entry. -/

def insertReplace {K V : Type} [DecidableEq K] (key : K) (v : V) :
    List (K × V) → List (K × V)
  | [] => [(key, v)]
  | (k, w) :: rest =>
    if k = key then (key, v) :: rest else (k, w) :: insertReplace key v rest

def eraseKey {K V : Type} [DecidableEq K] (key : K) :
    List (K × V) → List (K × V)
  | [] => []
  | (k, w) :: rest => if k = key then rest else (k, w) :: eraseKey key rest

def keysOf {K V : Type} (l : List (K × V)) : List K := l.map (fun p => p.1)

/-! ## `SQLCache` (trackman_nl_query_tool.py)

In-memory pattern cache: normalized question → (sql, timestamp, question).
`hashlib.md5(...).hexdigest()` is the injected oracle `md5` (a hex string,
modelled as `Str`); `time.time()` is the explicit `now : Nat` (seconds). -/

namespace SQLCache

def ttl : Nat := 86400 * 7

def max_size : Nat := 1000

structure Entry where
  sql : Str
  timestamp : Nat
  question : Str
deriving Repr, DecidableEq

abbrev Cache := List (Str × Entry)

/-- Python `question.lower().strip().split()`: the maximal non-whitespace
runs of the lower-cased text. -/
def splitWsAux : Str → Str → List Str
  | [], acc => if acc.isEmpty then [] else [acc.reverse]
  | c :: cs, acc =>
    if isPyWs c then
      if acc.isEmpty then splitWsAux cs [] else acc.reverse :: splitWsAux cs []
    else splitWsAux cs (c :: acc)

def splitWs (l : Str) : List Str := splitWsAux l []

/-- Python `" ".join(parts)`. -/
def joinSpace : List Str → Str
  | [] => []
  | [x] => x
  | x :: y :: xs => x ++ ' ' :: joinSpace (y :: xs)

/-- Python `re.sub(r"\b\d+\b", "N", s)`: each maximal digit run bounded on
both sides by a non-`\w` character (or the text edge) is replaced by `N`.
`prevWord` tracks whether the previous original character was a `\w`
character (there is no boundary between two `\w` characters).  Fuel-indexed
(with the text length) to keep the run-skipping recursion structural. -/
def subNumF : Nat → Bool → Str → Str
  | 0, _, l => l
  | _ + 1, _, [] => []
  | fuel + 1, prevWord, c :: cs =>
    if isDig c && !prevWord then
      if (match (cs.dropWhile isDig).head? with
          | some d => !(isWordC d)
          | none => true) then
        'N' :: subNumF fuel true (cs.dropWhile isDig)
      else (c :: cs.takeWhile isDig) ++ subNumF fuel true (cs.dropWhile isDig)
    else c :: subNumF fuel (isWordC c) cs

def subNumRuns (l : Str) : Str := subNumF l.length false l

/-- `_normalize_question`. -/
def normalize_question (q : Str) : Str :=
  subNumRuns (joinSpace (splitWs (QueryValidator.stripPyWs (lowS q))))

/-- `_get_key`. -/
def get_key (md5 : Str → Str) (q : Str) : Str := md5 (normalize_question q)

/-- `get`: expired entries are deleted on read and reported absent. -/
def get (md5 : Str → Str) (cache : Cache) (q : Str) (now : Nat) :
    Option Str × Cache :=
  let key := get_key md5 q
  match List.lookup key cache with
  | some e =>
    if now - e.timestamp < ttl then (some e.sql, cache)
    else (none, eraseKey key cache)
  | none => (none, cache)

/-- `min(self._cache.keys(), key=lambda k: self._cache[k][1])`: the first
key (in insertion order) with the smallest timestamp. -/
def oldestKeyAux : Str → Nat → Cache → Str
  | bk, _, [] => bk
  | bk, bt, (k, e) :: rest =>
    if e.timestamp < bt then oldestKeyAux k e.timestamp rest
    else oldestKeyAux bk bt rest

def oldestKey : Cache → Str
  | [] => []
  | (k, e) :: rest => oldestKeyAux k e.timestamp rest

/-- `set`: evict the single oldest entry when at capacity, then insert. -/
def set (md5 : Str → Str) (cache : Cache) (q sql : Str) (now : Nat) : Cache :=
  let cache :=
    if cache.length ≥ max_size then eraseKey (oldestKey cache) cache
    else cache
  insertReplace (get_key md5 q) { sql := sql, timestamp := now, question := q }
    cache

end SQLCache

/-! ## `SemanticCache` (azure_ai_integration.py)

Embedding-keyed cache; only `set` (and the structures it needs) is part of
the claims.  The embedding collaborator is the oracle `embed` (`none`
models an embedding failure), and the value type of embeddings is an
arbitrary `E` (the code stores them opaquely on `set`; cosine similarity is
only computed on `get`, which no claim touches). -/

namespace SemanticCache

def ttl : Nat := 86400 * 7

structure Entry (E : Type) where
  sql : Str
  timestamp : Nat
  question : Str
  embedding : Option E

abbrev Cache (E : Type) := List (Str × Entry E)

/-- `hashlib.md5(question.lower().strip().encode()).hexdigest()`. -/
def get_key (md5 : Str → Str) (q : Str) : Str :=
  md5 (QueryValidator.stripPyWs (lowS q))

/-- `sorted(self._cache.keys(), key=lambda k: self._cache[k][1])[:100]`
followed by `del` of those keys.  Python's `sorted` is a stable sort by
timestamp; a stable insertion sort produces the identical ordering. -/
def evictOldest100 {E : Type} (c : Cache E) : Cache E :=
  let sorted := List.insertionSort
    (fun a b : Str × Entry E => a.2.timestamp ≤ b.2.timestamp) c
  let oldest_keys := (sorted.take 100).map (fun p => p.1)
  c.filter (fun p => !(oldest_keys.contains p.1))

/-- `set`: evict the 100 oldest entries when at capacity, then insert. -/
def set {E : Type} (md5 : Str → Str) (embed : Str → Option E) (c : Cache E)
    (q sql : Str) (now : Nat) : Cache E :=
  let question_embedding := embed q
  let key := get_key md5 q
  let c := if c.length ≥ 1000 then evictOldest100 c else c
  insertReplace key
    { sql := sql, timestamp := now, question := q,
      embedding := question_embedding } c

end SemanticCache

/-! ## `SchemaDiscovery` (data_sources/schema_discovery.py) -/

/-- `ColumnSchema` of `base_data_source.py` (the part `get_table_schema`
reads). -/
structure ColumnSchema where
  name : String
  data_type : String
  nullable : Bool := true
  description : Option String := none
deriving Repr, DecidableEq

/-- `TableSchema` of `base_data_source.py` (the part `get_table_schema`
reads). -/
structure TableSchema where
  name : String
  columns : List ColumnSchema := []
deriving Repr, DecidableEq

/-- `ColumnStatistics` as far as `_get_column_statistics` fills it. -/
structure ColumnStatistics where
  sample_values : List String := []
deriving Repr, DecidableEq

structure EnrichedColumnSchema where
  name : String
  data_type : String
  nullable : Bool := true
  description : Option String := none
  statistics : Option ColumnStatistics := none
  is_primary_key : Bool := false
  is_foreign_key : Bool := false
  foreign_key_reference : Option String := none
deriving Repr, DecidableEq

structure EnrichedTableSchema where
  name : String
  columns : List EnrichedColumnSchema
  description : Option String := none
  row_count : Option Nat := none
  last_updated : Option Nat := none
deriving Repr, DecidableEq

/-- The error taxonomy of the schema-discovery layer.  The source module
defines only `SchemaDiscoveryError`; `schemaNotFoundError` exists in the
model solely because the specification's error taxonomy names a
`SchemaNotFoundError`, so that claims about which exception is raised can
be stated and compared — no modelled code path constructs it. -/
inductive SchemaError where
  | schemaDiscoveryError (msg : String)
  | schemaNotFoundError (msg : String)
deriving Repr, DecidableEq

namespace SchemaDiscovery

/-- `SchemaCache` of schema_discovery.py:
key → (value, timestamp); `datetime.now() - timestamp < timedelta(minutes=ttl)`
becomes `now - timestamp < 60 * ttl_minutes` with time in seconds. -/
structure SchemaCacheState where
  entries : List (String × (EnrichedTableSchema × Nat)) := []
  ttl_minutes : Nat := 60
deriving Repr, DecidableEq

/-- `SchemaCache.get`: an expired entry is deleted and reported absent. -/
def cache_get (c : SchemaCacheState) (key : String) (now : Nat) :
    Option EnrichedTableSchema × SchemaCacheState :=
  match List.lookup key c.entries with
  | some (v, ts) =>
    if now - ts < 60 * c.ttl_minutes then (some v, c)
    else (none, { c with entries := eraseKey key c.entries })
  | none => (none, c)

/-- `SchemaCache.set`. -/
def cache_set (c : SchemaCacheState) (key : String)
    (v : EnrichedTableSchema) (now : Nat) : SchemaCacheState :=
  { c with entries := insertReplace key (v, now) c.entries }

/-- Python `f"{include_statistics}"`. -/
def pyBool (b : Bool) : String := if b then "True" else "False"

/-- The data-source collaborator, as `get_table_schema` uses it:
`get_schema(table_name=...)` returns a dict of table schemas;
`execute_query`-based helpers `_get_table_row_count` and
`_get_column_statistics` catch their own exceptions and degrade to
`None` / empty statistics, so they are total functions here. -/
structure DataSourceOracle where
  get_schema : Option String → List (String × TableSchema)
  row_count : String → Option Nat
  column_statistics : String → String → ColumnStatistics

/-- `SchemaDiscovery.get_table_schema`: cached lookup, introspection on a
miss, `SchemaDiscoveryError` when the data source does not report the
table (Python: `if not schema_dict or table_name not in schema_dict` — an
empty dict also has no entry for the table, so the guard is exactly a
failed lookup). -/
def get_table_schema (ds : DataSourceOracle) (c : SchemaCacheState)
    (now : Nat) (table_name : String) (include_statistics : Bool) :
    Except SchemaError EnrichedTableSchema × SchemaCacheState :=
  let cache_key := "schema:" ++ table_name ++ ":" ++ pyBool include_statistics
  match cache_get c cache_key now with
  | (some cached, c1) => (.ok cached, c1)
  | (none, c1) =>
    let schema_dict := ds.get_schema (some table_name)
    match List.lookup table_name schema_dict with
    | none =>
      (.error (.schemaDiscoveryError
        ("Table " ++ sqS ++ table_name ++ sqS ++ " not found")), c1)
    | some base_schema =>
      let enriched_columns := base_schema.columns.map (fun col =>
        { name := col.name
          data_type := col.data_type
          nullable := col.nullable
          description := col.description
          statistics :=
            if include_statistics then
              some (ds.column_statistics table_name col.name)
            else none : EnrichedColumnSchema })
      let enriched_schema : EnrichedTableSchema :=
        { name := table_name
          columns := enriched_columns
          row_count := ds.row_count table_name
          last_updated := some now }
      (.ok enriched_schema, cache_set c1 cache_key enriched_schema now)

end SchemaDiscovery

/-! ## Characterization lemmas for the validator checks -/

namespace QueryValidator

/-- What every check may do to the result record: extend `errors` on the
right, possibly clear `is_valid` (never set it), and leave `sanitized_sql`
untouched. -/
def StepVR (r r2 : ValidationResult) : Prop :=
  r.errors <+: r2.errors ∧ (r2.is_valid = true → r.is_valid = true) ∧
    r2.sanitized_sql = r.sanitized_sql

theorem StepVR.refl {r : ValidationResult} : StepVR r r :=
  ⟨List.prefix_refl _, fun h => h, rfl⟩

theorem StepVR.trans {r1 r2 r3 : ValidationResult}
    (h1 : StepVR r1 r2) (h2 : StepVR r2 r3) : StepVR r1 r3 :=
  ⟨h1.1.trans h2.1, fun h => h1.2.1 (h2.2.1 h), h2.2.2.trans h1.2.2⟩

theorem StepVR.fail {r : ValidationResult} {ms : List String} :
    StepVR r { r with is_valid := false, errors := r.errors ++ ms } :=
  ⟨⟨ms, rfl⟩, fun h => absurd h (by simp), rfl⟩

theorem StepVR.foldl {α : Type} {step : ValidationResult → α → ValidationResult}
    (hstep : ∀ r a, StepVR r (step r a)) :
    ∀ (l : List α) (r : ValidationResult), StepVR r (l.foldl step r) := by
  intro l
  induction l with
  | nil => intro r; exact StepVR.refl
  | cons a as ih =>
    intro r
    exact (hstep r a).trans (ih (step r a))

theorem check_statement_type_step (st : Parsed) (r : ValidationResult) :
    StepVR r (check_statement_type st r) := by
  unfold check_statement_type
  split
  · exact StepVR.fail
  · exact StepVR.refl

theorem check_blocked_keywords_step (cfg : AllowlistConfig) (sql : Str)
    (r : ValidationResult) : StepVR r (check_blocked_keywords cfg sql r) := by
  simp only [check_blocked_keywords]
  by_cases he : (blockedMatches cfg.blocked_keywords sql).isEmpty = true
  · rw [if_pos he]
    exact StepVR.refl
  · rw [if_neg he]
    exact StepVR.fail

theorem check_tables_step (cfg : AllowlistConfig) (st : Parsed)
    (r : ValidationResult) : StepVR r (check_tables cfg st r) := by
  unfold check_tables
  refine StepVR.trans
    (show StepVR r { r with tables_used := st.tables } from
      ⟨List.prefix_refl _, fun h => h, rfl⟩) ?_
  apply StepVR.foldl
  intro r2 t
  split
  · exact StepVR.refl
  · exact StepVR.fail

theorem check_columns_step (cfg : AllowlistConfig) (st : Parsed)
    (r : ValidationResult) : StepVR r (check_columns cfg st r) := by
  unfold check_columns
  refine StepVR.trans
    (show StepVR r { r with columns_used := st.columns } from
      ⟨List.prefix_refl _, fun h => h, rfl⟩) ?_
  split
  · exact StepVR.refl
  · apply StepVR.foldl
    intro r2 t
    split
    · apply StepVR.foldl
      intro r3 col
      split
      · exact StepVR.refl
      · split
        · exact StepVR.refl
        · exact StepVR.fail
    · exact StepVR.refl

/-- The LIMIT warnings recorded by `_check_limit` for this input. -/
def limitWarnings (cfg : AllowlistConfig) (sql : Str) : List String :=
  if cfg.require_limit then
    if containsSub (upS sql) LIMITU = false then
      ["No LIMIT clause found. Adding default LIMIT " ++
        String.mk (renderNat cfg.max_row_limit)]
    else
      match (limitMatches (upS sql)).head? with
      | some v =>
        if v > cfg.max_row_limit then
          ["LIMIT " ++ String.mk (renderNat v) ++ " exceeds maximum " ++
            String.mk (renderNat cfg.max_row_limit) ++ ". Will be capped."]
        else []
      | none => []
  else []

theorem check_limit_eq (cfg : AllowlistConfig) (sql : Str)
    (r : ValidationResult) :
    check_limit cfg sql r = { r with warnings := r.warnings ++ limitWarnings cfg sql } := by
  unfold check_limit limitWarnings
  by_cases hr : cfg.require_limit = true
  · rw [if_pos hr, if_pos hr]
    by_cases hc : containsSub (upS sql) LIMITU = false
    · rw [if_pos hc, if_pos hc]
    · rw [if_neg hc, if_neg hc]
      cases hh : (limitMatches (upS sql)).head? with
      | some v =>
        simp only []
        by_cases hv : v > cfg.max_row_limit
        · simp [hv]
        · simp [hv]
      | none => simp
  · rw [if_neg hr, if_neg hr]
    simp

theorem check_limit_step (cfg : AllowlistConfig) (sql : Str)
    (r : ValidationResult) : StepVR r (check_limit cfg sql r) := by
  rw [check_limit_eq]
  exact ⟨List.prefix_refl _, fun h => h, rfl⟩

theorem check_subqueries_step (cfg : AllowlistConfig) (sql : Str)
    (r : ValidationResult) : StepVR r (check_subqueries cfg sql r) := by
  unfold check_subqueries
  split
  · split
    · exact StepVR.fail
    · exact StepVR.refl
  · exact StepVR.refl

theorem check_joins_step (cfg : AllowlistConfig) (sql : Str)
    (r : ValidationResult) : StepVR r (check_joins cfg sql r) := by
  unfold check_joins
  split
  · split
    · exact StepVR.fail
    · exact StepVR.refl
  · exact StepVR.refl

/-- The seven accumulate-and-report checks in source order. -/
def runChecks (cfg : AllowlistConfig) (st : Parsed) (sql : Str)
    (r : ValidationResult) : ValidationResult :=
  check_joins cfg sql (check_subqueries cfg sql (check_limit cfg sql
    (check_columns cfg st (check_tables cfg st (check_blocked_keywords cfg sql
      (check_statement_type st r))))))

theorem runChecks_step (cfg : AllowlistConfig) (st : Parsed) (sql : Str)
    (r : ValidationResult) : StepVR r (runChecks cfg st sql r) :=
  ((((((check_statement_type_step st r).trans
    (check_blocked_keywords_step cfg sql _)).trans
    (check_tables_step cfg st _)).trans
    (check_columns_step cfg st _)).trans
    (check_limit_step cfg sql _)).trans
    (check_subqueries_step cfg sql _)).trans
    (check_joins_step cfg sql _)

theorem validate_body_eq (parse : Str → Option Parsed) (fmt : Str → Str)
    (cfg : AllowlistConfig) (sql : Str) {st : Parsed}
    (hp : parse sql = some st) :
    validate_body parse fmt cfg sql =
      (let r7 := runChecks cfg st sql { is_valid := true }
       if injectionHit sql then
         Except.error
           (ValidationExc.securityViolationError
             "SQL injection pattern detected in query",
            { r7 with is_valid := false,
                      errors := r7.errors ++
                        ["Potential SQL injection pattern detected"] })
       else
         Except.ok (if r7.is_valid then
             { r7 with sanitized_sql := some (sanitize_sql fmt cfg sql) }
           else r7)) := by
  unfold validate_body check_sql_injection_patterns runChecks
  rw [hp]
  by_cases hi : injectionHit sql = true
  · simp [hi]
  · simp [hi]

/-! ### Pass/fail characterization of each check -/

def tablesPass (cfg : AllowlistConfig) (ts : List String) : Bool :=
  ts.all (fun t => cfg.allowed_tables.contains (strUp t))

def columnsPass (cfg : AllowlistConfig) (ts cols : List String) : Bool :=
  cfg.allowed_columns.isEmpty ||
  ts.all (fun t =>
    match List.lookup (strUp t) cfg.allowed_columns with
    | some allowed =>
      cols.all (fun col =>
        col = "*" || col.toList.contains (Char.ofNat 40) ||
          allowed.contains (strUp col))
    | none => true)

/-- All the accumulate-and-report hard checks pass on this statement. -/
def checksPass (cfg : AllowlistConfig) (st : Parsed) (sql : Str) : Bool :=
  (st.stmtType = "SELECT") &&
  (blockedMatches cfg.blocked_keywords sql).isEmpty &&
  tablesPass cfg st.tables &&
  columnsPass cfg st.tables st.columns &&
  (cfg.allow_subqueries || !(selectCount sql > 1)) &&
  (cfg.allow_joins || !(joinPresent sql))

theorem check_statement_type_is_valid (st : Parsed) (r : ValidationResult) :
    (check_statement_type st r).is_valid =
      (r.is_valid && (st.stmtType = "SELECT")) := by
  unfold check_statement_type
  by_cases h : st.stmtType = "SELECT"
  · rw [if_neg (by simp [h])]
    simp [h]
  · rw [if_pos h]
    simp [h]

theorem check_statement_type_eq_of_pass {st : Parsed} (r : ValidationResult)
    (h : st.stmtType = "SELECT") : check_statement_type st r = r := by
  unfold check_statement_type
  rw [if_neg (by simp [h])]

theorem check_blocked_keywords_is_valid (cfg : AllowlistConfig) (sql : Str)
    (r : ValidationResult) :
    (check_blocked_keywords cfg sql r).is_valid =
      (r.is_valid && (blockedMatches cfg.blocked_keywords sql).isEmpty) := by
  simp only [check_blocked_keywords]
  by_cases h : (blockedMatches cfg.blocked_keywords sql).isEmpty = true
  · rw [if_pos h]
    simp [h]
  · rw [if_neg h]
    simp [Bool.eq_false_iff.mpr h]

theorem check_blocked_keywords_eq_of_pass {cfg : AllowlistConfig} {sql : Str}
    (r : ValidationResult)
    (h : (blockedMatches cfg.blocked_keywords sql).isEmpty = true) :
    check_blocked_keywords cfg sql r = r := by
  simp only [check_blocked_keywords]
  rw [if_pos h]

theorem tablesPass_cons (cfg : AllowlistConfig) (t : String) (ts : List String) :
    tablesPass cfg (t :: ts) =
      (cfg.allowed_tables.contains (strUp t) && tablesPass cfg ts) := by
  unfold tablesPass
  rw [List.all_cons]

theorem check_tables_fold_is_valid (cfg : AllowlistConfig) :
    ∀ (ts : List String) (r : ValidationResult),
    (ts.foldl (fun racc t =>
      if cfg.allowed_tables.contains (strUp t) then racc
      else
        { racc with is_valid := false,
                    errors := racc.errors ++ ["Table not in allowlist: " ++ t] })
      r).is_valid = (r.is_valid && tablesPass cfg ts) := by
  intro ts
  induction ts with
  | nil =>
    intro r
    simp [tablesPass]
  | cons t ts ih =>
    intro r
    rw [List.foldl_cons, ih, tablesPass_cons]
    by_cases h : cfg.allowed_tables.contains (strUp t) = true
    · rw [if_pos h, h, Bool.true_and]
    · rw [if_neg h, Bool.eq_false_iff.mpr h, Bool.false_and, Bool.and_false]

theorem check_tables_fold_fields (cfg : AllowlistConfig) :
    ∀ (ts : List String) (r : ValidationResult),
    (ts.foldl (fun racc t =>
      if cfg.allowed_tables.contains (strUp t) then racc
      else
        { racc with is_valid := false,
                    errors := racc.errors ++ ["Table not in allowlist: " ++ t] })
      r).tables_used = r.tables_used ∧
    (ts.foldl (fun racc t =>
      if cfg.allowed_tables.contains (strUp t) then racc
      else
        { racc with is_valid := false,
                    errors := racc.errors ++ ["Table not in allowlist: " ++ t] })
      r).columns_used = r.columns_used := by
  intro ts
  induction ts with
  | nil =>
    intro r
    exact ⟨rfl, rfl⟩
  | cons t ts ih =>
    intro r
    rw [List.foldl_cons]
    rcases ih (if cfg.allowed_tables.contains (strUp t) then r
      else { r with is_valid := false,
                    errors := r.errors ++ ["Table not in allowlist: " ++ t] }) with ⟨h1, h2⟩
    constructor
    · rw [h1]
      split <;> rfl
    · rw [h2]
      split <;> rfl

theorem check_tables_is_valid (cfg : AllowlistConfig) (st : Parsed)
    (r : ValidationResult) :
    (check_tables cfg st r).is_valid = (r.is_valid && tablesPass cfg st.tables) := by
  unfold check_tables
  rw [check_tables_fold_is_valid]

theorem check_tables_tables_used (cfg : AllowlistConfig) (st : Parsed)
    (r : ValidationResult) :
    (check_tables cfg st r).tables_used = st.tables := by
  unfold check_tables
  rw [(check_tables_fold_fields cfg st.tables _).1]

theorem check_tables_eq_of_pass {cfg : AllowlistConfig} {st : Parsed}
    (r : ValidationResult) (h : tablesPass cfg st.tables = true) :
    check_tables cfg st r = { r with tables_used := st.tables } := by
  unfold check_tables
  unfold tablesPass at h
  rw [List.all_eq_true] at h
  have H : ∀ (ts : List String),
      (∀ t ∈ ts, cfg.allowed_tables.contains (strUp t) = true) →
      ∀ (r2 : ValidationResult),
      ts.foldl (fun racc t =>
        if cfg.allowed_tables.contains (strUp t) then racc
        else
          { racc with is_valid := false,
                      errors := racc.errors ++ ["Table not in allowlist: " ++ t] })
        r2 = r2 := by
    intro ts
    induction ts with
    | nil =>
      intro _ r2
      rfl
    | cons t ts ih =>
      intro hts r2
      rw [List.foldl_cons, if_pos (by
        have := hts t (List.mem_cons_self t ts)
        simpa using this)]
      exact ih (fun a ha => hts a (List.mem_cons_of_mem t ha)) r2
  exact H st.tables (fun t ht => by simpa using h t ht) _

theorem check_columns_inner_fold_is_valid (allowed : List String) (t : String)
    (cols : List String) :
    ∀ (r : ValidationResult),
    (cols.foldl (fun racc2 col =>
      if col = "*" || col.toList.contains (Char.ofNat 40) then racc2
      else if allowed.contains (strUp col) then racc2
      else
        { racc2 with is_valid := false,
                     errors := racc2.errors ++
                       ["Column " ++ sqS ++ col ++ sqS ++
                         " not in allowlist for table " ++ sqS ++ t ++ sqS] })
      r).is_valid =
      (r.is_valid && cols.all (fun col =>
        col = "*" || col.toList.contains (Char.ofNat 40) ||
          allowed.contains (strUp col))) := by
  induction cols with
  | nil =>
    intro r
    simp
  | cons col cols ih =>
    intro r
    rw [List.foldl_cons, ih, List.all_cons]
    by_cases h1 : (decide (col = "*") || col.toList.contains (Char.ofNat 40)) = true
    · rw [if_pos (by simpa using h1), h1, Bool.true_or, Bool.true_and]
    · rw [if_neg (by simpa using h1), Bool.eq_false_iff.mpr h1, Bool.false_or]
      by_cases h2 : allowed.contains (strUp col) = true
      · rw [if_pos h2, h2, Bool.true_and]
      · rw [if_neg h2, Bool.eq_false_iff.mpr h2, Bool.false_and, Bool.and_false]

theorem check_columns_outer_fold_is_valid (cfg : AllowlistConfig)
    (cols : List String) :
    ∀ (ts : List String) (r : ValidationResult),
    (ts.foldl (fun racc t =>
      match List.lookup (strUp t) cfg.allowed_columns with
      | some allowed =>
        cols.foldl (fun racc2 col =>
          if col = "*" || col.toList.contains (Char.ofNat 40) then racc2
          else if allowed.contains (strUp col) then racc2
          else
            { racc2 with is_valid := false,
                         errors := racc2.errors ++
                           ["Column " ++ sqS ++ col ++ sqS ++
                             " not in allowlist for table " ++ sqS ++ t ++ sqS] })
          racc
      | none => racc) r).is_valid =
      (r.is_valid && ts.all (fun t =>
        match List.lookup (strUp t) cfg.allowed_columns with
        | some allowed =>
          cols.all (fun col =>
            col = "*" || col.toList.contains (Char.ofNat 40) ||
              allowed.contains (strUp col))
        | none => true)) := by
  intro ts
  induction ts with
  | nil =>
    intro r
    simp
  | cons t ts ih =>
    intro r
    rw [List.foldl_cons, ih, List.all_cons]
    cases hl : List.lookup (strUp t) cfg.allowed_columns with
    | some allowed =>
      simp only [hl]
      rw [check_columns_inner_fold_is_valid]
      rw [Bool.and_assoc]
    | none =>
      simp only [hl]
      rw [Bool.true_and]

theorem check_columns_is_valid (cfg : AllowlistConfig) (st : Parsed)
    (r : ValidationResult) :
    (check_columns cfg st r).is_valid =
      (r.is_valid && columnsPass cfg r.tables_used st.columns) := by
  unfold check_columns columnsPass
  by_cases he : cfg.allowed_columns.isEmpty = true
  · rw [if_pos he, he, Bool.true_or, Bool.and_true]
  · rw [if_neg he]
    show (List.foldl _ ({ r with columns_used := st.columns } :
      ValidationResult) r.tables_used).is_valid = _
    rw [check_columns_outer_fold_is_valid]
    rw [Bool.eq_false_iff.mpr he, Bool.false_or]

theorem check_columns_eq_of_pass {cfg : AllowlistConfig} {st : Parsed}
    (r : ValidationResult) (h : columnsPass cfg r.tables_used st.columns = true) :
    check_columns cfg st r = { r with columns_used := st.columns } := by
  unfold check_columns
  by_cases he : cfg.allowed_columns.isEmpty = true
  · rw [if_pos he]
  · rw [if_neg he]
    unfold columnsPass at h
    rw [Bool.eq_false_iff.mpr he, Bool.false_or, List.all_eq_true] at h
    have H : ∀ (ts : List String),
        (∀ t ∈ ts, (match List.lookup (strUp t) cfg.allowed_columns with
          | some allowed =>
            st.columns.all (fun col =>
              col = "*" || col.toList.contains (Char.ofNat 40) ||
                allowed.contains (strUp col))
          | none => true) = true) →
        ∀ (r2 : ValidationResult),
        ts.foldl (fun racc t =>
          match List.lookup (strUp t) cfg.allowed_columns with
          | some allowed =>
            st.columns.foldl (fun racc2 col =>
              if col = "*" || col.toList.contains (Char.ofNat 40) then racc2
              else if allowed.contains (strUp col) then racc2
              else
                { racc2 with is_valid := false,
                             errors := racc2.errors ++
                               ["Column " ++ sqS ++ col ++ sqS ++
                                 " not in allowlist for table " ++ sqS ++ t ++ sqS] })
              racc
          | none => racc) r2 = r2 := by
      intro ts
      induction ts with
      | nil =>
        intro _ r2
        rfl
      | cons t ts ih =>
        intro hts r2
        simp only [List.foldl_cons]
        have ht := hts t (List.mem_cons_self t ts)
        cases hl : List.lookup (strUp t) cfg.allowed_columns with
        | some allowed =>
          rw [hl] at ht
          have hcols := List.all_eq_true.mp ht
          have hfold : ∀ (cols : List String),
              (∀ col ∈ cols,
                (decide (col = "*") || col.toList.contains (Char.ofNat 40) ||
                  allowed.contains (strUp col)) = true) →
              ∀ (r3 : ValidationResult),
              cols.foldl (fun racc2 col =>
                if col = "*" || col.toList.contains (Char.ofNat 40) then racc2
                else if allowed.contains (strUp col) then racc2
                else
                  { racc2 with is_valid := false,
                               errors := racc2.errors ++
                                 ["Column " ++ sqS ++ col ++ sqS ++
                                   " not in allowlist for table " ++ sqS ++ t ++ sqS] })
                r3 = r3 := by
            intro cols
            induction cols with
            | nil =>
              intro _ r3
              rfl
            | cons col cols ih2 =>
              intro hcs r3
              rw [List.foldl_cons]
              have hc := hcs col (List.mem_cons_self col cols)
              by_cases h1 : (decide (col = "*") ||
                  col.toList.contains (Char.ofNat 40)) = true
              · rw [if_pos (by simpa using h1)]
                exact ih2 (fun c hc2 => hcs c (List.mem_cons_of_mem col hc2)) r3
              · rw [Bool.eq_false_iff.mpr h1, Bool.false_or] at hc
                rw [if_neg (by simpa using h1), if_pos hc]
                exact ih2 (fun c hc2 => hcs c (List.mem_cons_of_mem col hc2)) r3
          simp only [hl]
          rw [hfold st.columns (fun col hcol => by simpa using hcols col hcol) r2]
          exact ih (fun a ha => hts a (List.mem_cons_of_mem t ha)) r2
        | none =>
          simp only [hl]
          exact ih (fun a ha => hts a (List.mem_cons_of_mem t ha)) r2
    exact H r.tables_used h _

theorem check_limit_is_valid (cfg : AllowlistConfig) (sql : Str)
    (r : ValidationResult) : (check_limit cfg sql r).is_valid = r.is_valid := by
  rw [check_limit_eq]

theorem check_subqueries_is_valid (cfg : AllowlistConfig) (sql : Str)
    (r : ValidationResult) :
    (check_subqueries cfg sql r).is_valid =
      (r.is_valid && (cfg.allow_subqueries || !(selectCount sql > 1))) := by
  unfold check_subqueries
  by_cases ha : cfg.allow_subqueries = true
  · rw [if_neg (by simp [ha])]
    simp [ha]
  · rw [if_pos (by simp [Bool.eq_false_iff.mpr ha])]
    by_cases hc : selectCount sql > 1
    · rw [if_pos hc]
      simp [Bool.eq_false_iff.mpr ha, hc]
    · rw [if_neg hc]
      simp [Bool.eq_false_iff.mpr ha, hc]

theorem check_subqueries_eq_of_pass {cfg : AllowlistConfig} {sql : Str}
    (r : ValidationResult)
    (h : (cfg.allow_subqueries || !(selectCount sql > 1)) = true) :
    check_subqueries cfg sql r = r := by
  unfold check_subqueries
  by_cases ha : cfg.allow_subqueries = true
  · rw [if_neg (by simp [ha])]
  · have hc : ¬(selectCount sql > 1) := by
      rw [Bool.eq_false_iff.mpr ha, Bool.false_or] at h
      simpa using h
    rw [if_pos (by simp [Bool.eq_false_iff.mpr ha]), if_neg hc]

theorem check_joins_is_valid (cfg : AllowlistConfig) (sql : Str)
    (r : ValidationResult) :
    (check_joins cfg sql r).is_valid =
      (r.is_valid && (cfg.allow_joins || !(joinPresent sql))) := by
  unfold check_joins
  by_cases ha : cfg.allow_joins = true
  · rw [if_neg (by simp [ha])]
    simp [ha]
  · rw [if_pos (by simp [Bool.eq_false_iff.mpr ha])]
    by_cases hc : joinPresent sql = true
    · rw [if_pos hc]
      simp [Bool.eq_false_iff.mpr ha, hc]
    · rw [if_neg hc]
      simp [Bool.eq_false_iff.mpr ha, Bool.eq_false_iff.mpr hc]

theorem check_joins_eq_of_pass {cfg : AllowlistConfig} {sql : Str}
    (r : ValidationResult)
    (h : (cfg.allow_joins || !(joinPresent sql)) = true) :
    check_joins cfg sql r = r := by
  unfold check_joins
  by_cases ha : cfg.allow_joins = true
  · rw [if_neg (by simp [ha])]
  · have hc : joinPresent sql = false := by
      rw [Bool.eq_false_iff.mpr ha, Bool.false_or] at h
      simpa using h
    rw [if_pos (by simp [Bool.eq_false_iff.mpr ha]), if_neg (by simp [hc])]

theorem runChecks_is_valid (cfg : AllowlistConfig) (st : Parsed) (sql : Str)
    (r : ValidationResult) :
    (runChecks cfg st sql r).is_valid = (r.is_valid && checksPass cfg st sql) := by
  unfold runChecks checksPass
  rw [check_joins_is_valid, check_subqueries_is_valid, check_limit_is_valid,
    check_columns_is_valid, check_tables_tables_used, check_tables_is_valid,
    check_blocked_keywords_is_valid, check_statement_type_is_valid]
  simp only [Bool.and_assoc]

theorem runChecks_eq_of_pass {cfg : AllowlistConfig} {st : Parsed} {sql : Str}
    (hpass : checksPass cfg st sql = true) (r : ValidationResult) :
    runChecks cfg st sql r =
      { r with tables_used := st.tables, columns_used := st.columns,
               warnings := r.warnings ++ limitWarnings cfg sql } := by
  unfold checksPass at hpass
  rw [Bool.and_eq_true, Bool.and_eq_true, Bool.and_eq_true, Bool.and_eq_true,
    Bool.and_eq_true] at hpass
  obtain ⟨⟨⟨⟨⟨h1, h2⟩, h3⟩, h4⟩, h5⟩, h6⟩ := hpass
  unfold runChecks
  rw [check_statement_type_eq_of_pass r (of_decide_eq_true h1),
    check_blocked_keywords_eq_of_pass r h2,
    check_tables_eq_of_pass r h3,
    check_columns_eq_of_pass _ h4,
    check_limit_eq,
    check_subqueries_eq_of_pass _ h5,
    check_joins_eq_of_pass _ h6]

theorem validate_eq_of_pass {parse : Str → Option Parsed} {fmt : Str → Str}
    {cfg : AllowlistConfig} {sql : Str} {st : Parsed}
    (hp : parse sql = some st) (hpass : checksPass cfg st sql = true)
    (hinj : injectionHit sql = false) :
    validate parse fmt cfg sql =
      { is_valid := true, errors := [], warnings := limitWarnings cfg sql,
        sanitized_sql := some (sanitize_sql fmt cfg sql),
        tables_used := st.tables, columns_used := st.columns } := by
  have h7 := runChecks_eq_of_pass hpass ({ is_valid := true } : ValidationResult)
  unfold validate
  rw [validate_body_eq _ _ _ _ hp]
  simp only [hinj, Bool.false_eq_true, if_false, h7]
  simp

theorem validate_valid_inversion {parse : Str → Option Parsed} {fmt : Str → Str}
    {cfg : AllowlistConfig} {sql : Str} {st : Parsed}
    (hp : parse sql = some st)
    (hv : (validate parse fmt cfg sql).is_valid = true) :
    checksPass cfg st sql = true ∧ injectionHit sql = false := by
  unfold validate at hv
  rw [validate_body_eq _ _ _ _ hp] at hv
  by_cases hi : injectionHit sql = true
  · exfalso
    simp only [hi, if_true] at hv
    simp at hv
  · have hif : injectionHit sql = false := Bool.eq_false_iff.mpr hi
    refine ⟨?_, hif⟩
    simp only [hif, Bool.false_eq_true, if_false] at hv
    have hr7 : (runChecks cfg st sql { is_valid := true }).is_valid = true := by
      by_cases h7 : (runChecks cfg st sql
          ({ is_valid := true } : ValidationResult)).is_valid = true
      · exact h7
      · simp only [h7] at hv
        rw [if_neg (by simp [h7])] at hv
        exact absurd hv h7
    rw [runChecks_is_valid] at hr7
    simpa using hr7

theorem validate_of_body_error {parse : Str → Option Parsed} {fmt : Str → Str}
    {cfg : AllowlistConfig} {sql : Str} {e : ValidationExc}
    {r2 : ValidationResult}
    (he : validate_body parse fmt cfg sql = .error (e, r2)) :
    validate parse fmt cfg sql =
      { r2 with is_valid := false,
                errors := r2.errors ++ ["Validation error: " ++ excMessage e] } := by
  unfold validate
  rw [he]

theorem validate_body_error_of_inj {parse : Str → Option Parsed}
    {fmt : Str → Str} {cfg : AllowlistConfig} {sql : Str} {st : Parsed}
    (hp : parse sql = some st) (hinj : injectionHit sql = true) :
    validate_body parse fmt cfg sql =
      .error (.securityViolationError "SQL injection pattern detected in query",
        { runChecks cfg st sql { is_valid := true } with
            is_valid := false,
            errors := (runChecks cfg st sql { is_valid := true }).errors ++
              ["Potential SQL injection pattern detected"] }) := by
  rw [validate_body_eq _ _ _ _ hp]
  simp only [hinj, if_true]

theorem validate_body_ok_inv {parse : Str → Option Parsed} {fmt : Str → Str}
    {cfg : AllowlistConfig} {sql : Str} {x : ValidationExc × ValidationResult}
    (he : validate_body parse fmt cfg sql = .error x) :
    injectionHit sql = true ∧ ∃ st, parse sql = some st := by
  cases hp : parse sql with
  | none =>
    exfalso
    unfold validate_body at he
    rw [hp] at he
    exact absurd he (by simp)
  | some st =>
    refine ⟨?_, st, rfl⟩
    rw [validate_body_eq _ _ _ _ hp] at he
    by_cases hi : injectionHit sql = true
    · exact hi
    · exfalso
      simp only [Bool.eq_false_iff.mpr hi, Bool.false_eq_true, if_false] at he
      exact absurd he (by simp)

/-- The result record after the seven checks keeps `sanitized_sql = none`. -/
theorem runChecks_sanitized_none (cfg : AllowlistConfig) (st : Parsed)
    (sql : Str) :
    (runChecks cfg st sql { is_valid := true }).sanitized_sql = none :=
  (runChecks_step cfg st sql _).2.2

/-- Whenever `validate` returns an invalid result, `sanitized_sql` is `none`:
the only assignment to `sanitized_sql` is guarded by `result.is_valid`, the
checks never touch the field, and the exception handler does not either. -/
theorem validate_invalid_sanitized_none {parse : Str → Option Parsed}
    {fmt : Str → Str} {cfg : AllowlistConfig} {sql : Str}
    (hv : (validate parse fmt cfg sql).is_valid = false) :
    (validate parse fmt cfg sql).sanitized_sql = none := by
  cases hp : parse sql with
  | none => simp [validate, validate_body, hp]
  | some st =>
    unfold validate at hv ⊢
    rw [validate_body_eq _ _ _ _ hp] at hv ⊢
    by_cases hi : injectionHit sql = true
    · simp only [hi, if_true]
      exact runChecks_sanitized_none cfg st sql
    · simp only [Bool.eq_false_iff.mpr hi, Bool.false_eq_true, if_false] at hv ⊢
      by_cases h7 : (runChecks cfg st sql
          ({ is_valid := true } : ValidationResult)).is_valid = true
      · exfalso
        rw [if_pos h7] at hv
        have hfalse : (runChecks cfg st sql
            ({ is_valid := true } : ValidationResult)).is_valid = false := hv
        rw [h7] at hfalse
        exact Bool.noConfusion hfalse
      · rw [if_neg h7]
        exact runChecks_sanitized_none cfg st sql

/-- Error messages accumulated by the seven checks survive into the final
result of `validate`, both on the normal path and through the exception
handler. -/
theorem validate_errors_mem {parse : Str → Option Parsed} {fmt : Str → Str}
    {cfg : AllowlistConfig} {sql : Str} {st : Parsed} {m : String}
    (hp : parse sql = some st)
    (hm : m ∈ (runChecks cfg st sql ({ is_valid := true } : ValidationResult)).errors) :
    m ∈ (validate parse fmt cfg sql).errors := by
  unfold validate
  rw [validate_body_eq _ _ _ _ hp]
  by_cases hi : injectionHit sql = true
  · simp only [hi, if_true]
    exact List.mem_append_left _ (List.mem_append_left _ hm)
  · simp only [Bool.eq_false_iff.mpr hi, Bool.false_eq_true, if_false]
    by_cases h7 : (runChecks cfg st sql
        ({ is_valid := true } : ValidationResult)).is_valid = true
    · rw [if_pos h7]
      exact hm
    · rw [if_neg h7]
      exact hm

/-- If the statement type is not SELECT, the statement-type check's message
is present after the seven checks. -/
theorem runChecks_errors_stmt {st : Parsed} (cfg : AllowlistConfig) (sql : Str)
    (r : ValidationResult) (hne : st.stmtType ≠ "SELECT") :
    ("Only SELECT statements are allowed, got: " ++ st.stmtType) ∈
      (runChecks cfg st sql r).errors := by
  unfold runChecks
  have hm : ("Only SELECT statements are allowed, got: " ++ st.stmtType) ∈
      (check_statement_type st r).errors := by
    unfold check_statement_type
    rw [if_pos hne]
    exact List.mem_append_right _ (List.mem_singleton.mpr rfl)
  exact ((((((check_blocked_keywords_step cfg sql _).trans
    (check_tables_step cfg st _)).trans
    (check_columns_step cfg st _)).trans
    (check_limit_step cfg sql _)).trans
    (check_subqueries_step cfg sql _)).trans
    (check_joins_step cfg sql _)).1.subset hm

/-- The table-allowlist fold records a message for every table that fails
the allowlist test. -/
theorem check_tables_fold_mem (cfg : AllowlistConfig) (t : String)
    (hf : cfg.allowed_tables.contains (strUp t) = false) :
    ∀ (ts : List String) (r : ValidationResult), t ∈ ts →
    ("Table not in allowlist: " ++ t) ∈
      (ts.foldl (fun racc u =>
        if cfg.allowed_tables.contains (strUp u) then racc
        else { racc with is_valid := false,
                         errors := racc.errors ++ ["Table not in allowlist: " ++ u] })
        r).errors := by
  intro ts
  induction ts with
  | nil =>
    intro r ht
    exact absurd ht (List.not_mem_nil t)
  | cons a as ih =>
    intro r ht
    rw [List.foldl_cons]
    rcases List.mem_cons.mp ht with heq | hmem
    · subst heq
      rw [if_neg (by intro hc; rw [hf] at hc; exact Bool.noConfusion hc)]
      have hstep : ∀ (r2 : ValidationResult) (u : String), StepVR r2
          (if cfg.allowed_tables.contains (strUp u) then r2
           else { r2 with is_valid := false,
                          errors := r2.errors ++ ["Table not in allowlist: " ++ u] }) := by
        intro r2 u
        split
        · exact StepVR.refl
        · exact StepVR.fail
      refine (StepVR.foldl hstep as _).1.subset ?_
      exact List.mem_append_right _ (List.mem_singleton.mpr rfl)
    · exact ih _ hmem

/-- A disallowed referenced table leaves its message in the result of the
seven checks. -/
theorem runChecks_errors_table {cfg : AllowlistConfig} {st : Parsed}
    (sql : Str) (r : ValidationResult) {t : String} (ht : t ∈ st.tables)
    (hf : cfg.allowed_tables.contains (strUp t) = false) :
    ("Table not in allowlist: " ++ t) ∈ (runChecks cfg st sql r).errors := by
  unfold runChecks
  have hm : ("Table not in allowlist: " ++ t) ∈
      (check_tables cfg st (check_blocked_keywords cfg sql
        (check_statement_type st r))).errors := by
    unfold check_tables
    exact check_tables_fold_mem cfg t hf st.tables _ ht
  exact ((((check_columns_step cfg st _).trans
    (check_limit_step cfg sql _)).trans
    (check_subqueries_step cfg sql _)).trans
    (check_joins_step cfg sql _)).1.subset hm

/-- A failed hard check makes `validate`'s result invalid. -/
theorem validate_invalid_of_checksPass_false {parse : Str → Option Parsed}
    {fmt : Str → Str} {cfg : AllowlistConfig} {sql : Str} {st : Parsed}
    (hp : parse sql = some st) (hnp : checksPass cfg st sql = false) :
    (validate parse fmt cfg sql).is_valid = false := by
  by_cases hv : (validate parse fmt cfg sql).is_valid = true
  · have h := (validate_valid_inversion hp hv).1
    rw [h] at hnp
    exact Bool.noConfusion hnp
  · exact Bool.eq_false_iff.mpr hv

end QueryValidator

/-! ## Concrete fixtures used by the witness and counterexample theorems -/

/-- Parse oracle for a single-table `SELECT * FROM t` statement. -/
def wParse : Str → Option Parsed :=
  fun _ => some { stmtType := "SELECT", tables := ["t"], columns := ["*"] }

/-- Identity formatting oracle (already-formatted SQL). -/
def wFmt : Str → Str := fun l => l

/-- A small allowlist configuration: table `T`, row cap 100. -/
def wCfg : AllowlistConfig := { allowed_tables := ["T"], max_row_limit := 100 }

/-- An input carrying a tautological `OR 1=1` injection pattern. -/
def wInj : Str := "SELECT * FROM t WHERE x = 0 OR 1=1".toList

/-- The result record built by the seven checks on `wInj` at the moment the
injection scan raises. -/
def wR2 : ValidationResult :=
  { is_valid := false,
    errors := ["Potential SQL injection pattern detected"],
    warnings := ["No LIMIT clause found. Adding default LIMIT 100"],
    sanitized_sql := none,
    tables_used := ["t"],
    columns_used := ["*"] }

/-- Parse oracle modelling `sqlparse.parse` returning no statement. -/
def wParseNone : Str → Option Parsed := fun _ => none

/-- Parse oracle for a non-SELECT statement. -/
def wParseIns : Str → Option Parsed :=
  fun _ => some { stmtType := "INSERT", tables := ["t"], columns := [] }

/-- Parse oracle referencing a table outside the allowlist. -/
def wParseBadT : Str → Option Parsed :=
  fun _ => some { stmtType := "SELECT", tables := ["SensitiveData"], columns := ["*"] }

/-- Looking up a key immediately after `insertReplace` of that key finds the
new value (both when the key replaced an entry in place and when it was
appended). -/
theorem lookup_insertReplace {K V : Type} [DecidableEq K] [BEq K] [LawfulBEq K]
    (key : K) (v : V) :
    ∀ l : List (K × V), List.lookup key (insertReplace key v l) = some v := by
  intro l
  induction l with
  | nil => simp [insertReplace, List.lookup]
  | cons p rest ih =>
    obtain ⟨k, w⟩ := p
    by_cases hk : k = key
    · subst hk
      simp [insertReplace, List.lookup]
    · have hb : (key == k) = false := beq_eq_false_iff_ne.mpr (Ne.symm hk)
      simp [insertReplace, hk, List.lookup, hb, ih]

/-! ## Claim theorems -/

/-- C1 (counterexample to the claim as stated): on an input matching the
tautological-OR injection regex, the `try` body of `validate` does raise
`SecurityViolationError` (the `Except.error`), but `validate` itself catches
it and RETURNS a normal `ValidationResult` to its caller — the record below,
with the handler's message appended — rather than propagating the
exception. -/
theorem claim_C1_counterexample :
    injectionHit wInj = true ∧
    QueryValidator.validate_body wParse wFmt wCfg wInj =
      .error (.securityViolationError "SQL injection pattern detected in query", wR2) ∧
    QueryValidator.validate wParse wFmt wCfg wInj =
      { wR2 with is_valid := false,
                 errors := wR2.errors ++
                   ["Validation error: SQL injection pattern detected in query"] } :=
  ⟨by decide, by rfl, by rfl⟩

/-- C1 (amended): for every input matching one of the injection-pattern
regexes, the internal check raises `SecurityViolationError` (visible as the
`Except.error` of the `try` body whenever the input parses), but `validate`
catches it and returns a normal result with `is_valid = false`; such an
input never yields a non-`none` `sanitized_sql`. -/
theorem claim_C1 (parse : Str → Option Parsed) (fmt : Str → Str)
    (cfg : AllowlistConfig) (sql : Str) (hinj : injectionHit sql = true) :
    (QueryValidator.validate parse fmt cfg sql).sanitized_sql = none ∧
    (QueryValidator.validate parse fmt cfg sql).is_valid = false ∧
    ∀ st, parse sql = some st →
      QueryValidator.validate_body parse fmt cfg sql =
        .error (.securityViolationError "SQL injection pattern detected in query",
          { QueryValidator.runChecks cfg st sql { is_valid := true } with
              is_valid := false,
              errors := (QueryValidator.runChecks cfg st sql
                  { is_valid := true }).errors ++
                ["Potential SQL injection pattern detected"] }) := by
  have hvfalse : (QueryValidator.validate parse fmt cfg sql).is_valid = false := by
    cases hp : parse sql with
    | none => simp [QueryValidator.validate, QueryValidator.validate_body, hp]
    | some st =>
      by_cases hv : (QueryValidator.validate parse fmt cfg sql).is_valid = true
      · have h := (QueryValidator.validate_valid_inversion hp hv).2
        rw [hinj] at h
        exact Bool.noConfusion h
      · exact Bool.eq_false_iff.mpr hv
  exact ⟨QueryValidator.validate_invalid_sanitized_none hvfalse, hvfalse,
    fun st hp => QueryValidator.validate_body_error_of_inj hp hinj⟩

/-- C1 witness: the amended theorem instantiated at the concrete injection
input `wInj`. -/
theorem claim_C1_witness :
    (QueryValidator.validate wParse wFmt wCfg wInj).sanitized_sql = none ∧
    (QueryValidator.validate wParse wFmt wCfg wInj).is_valid = false ∧
    ∀ st, wParse wInj = some st →
      QueryValidator.validate_body wParse wFmt wCfg wInj =
        .error (.securityViolationError "SQL injection pattern detected in query",
          { QueryValidator.runChecks wCfg st wInj { is_valid := true } with
              is_valid := false,
              errors := (QueryValidator.runChecks wCfg st wInj
                  { is_valid := true }).errors ++
                ["Potential SQL injection pattern detected"] }) :=
  claim_C1 wParse wFmt wCfg wInj (by decide)

/-- C2: `validate` is total at its interface — in the embedding it always
returns a `ValidationResult`, and whenever the `try` body raises (the body
is an `Except.error`, which only the injection scan's
`SecurityViolationError` can produce), the handler converts the exception
into a returned result with `is_valid = false` and
`"Validation error: <msg>"` appended to `errors`. -/
theorem claim_C2 (parse : Str → Option Parsed) (fmt : Str → Str)
    (cfg : AllowlistConfig) (sql : Str) (e : ValidationExc)
    (r2 : ValidationResult)
    (he : QueryValidator.validate_body parse fmt cfg sql = .error (e, r2)) :
    (∃ m, e = .securityViolationError m) ∧
    QueryValidator.validate parse fmt cfg sql =
      { r2 with is_valid := false,
                errors := r2.errors ++ ["Validation error: " ++ excMessage e] } ∧
    (QueryValidator.validate parse fmt cfg sql).is_valid = false := by
  refine ⟨?_, QueryValidator.validate_of_body_error he, ?_⟩
  · cases e with
    | securityViolationError m => exact ⟨m, rfl⟩
  · rw [QueryValidator.validate_of_body_error he]

/-- C2 witness: the handler theorem at the concrete raising input `wInj`. -/
theorem claim_C2_witness :
    (∃ m, ValidationExc.securityViolationError
        "SQL injection pattern detected in query" = .securityViolationError m) ∧
    QueryValidator.validate wParse wFmt wCfg wInj =
      { wR2 with is_valid := false,
                 errors := wR2.errors ++
                   ["Validation error: " ++ excMessage
                     (.securityViolationError "SQL injection pattern detected in query")] } ∧
    (QueryValidator.validate wParse wFmt wCfg wInj).is_valid = false :=
  claim_C2 wParse wFmt wCfg wInj
    (.securityViolationError "SQL injection pattern detected in query") wR2 (by rfl)

/-- C3: invariant of the results produced by `validate` — whenever
`is_valid` is `false`, `sanitized_sql` is `none` (equivalently,
`sanitized_sql` can be non-`none` only on valid results). -/
theorem claim_C3 (parse : Str → Option Parsed) (fmt : Str → Str)
    (cfg : AllowlistConfig) (sql : Str)
    (hv : (QueryValidator.validate parse fmt cfg sql).is_valid = false) :
    (QueryValidator.validate parse fmt cfg sql).sanitized_sql = none :=
  QueryValidator.validate_invalid_sanitized_none hv

/-- C3 witness: an unparseable input yields an invalid result, and its
`sanitized_sql` is `none`. -/
theorem claim_C3_witness :
    (QueryValidator.validate wParseNone wFmt wCfg
      "SELCT * FORM x".toList).sanitized_sql = none :=
  claim_C3 wParseNone wFmt wCfg "SELCT * FORM x".toList (by rfl)

/-- C7: when the parsed statement type is not SELECT, `validate` returns
`is_valid = false` and `errors` contains the message naming the actual
statement type encountered. -/
theorem claim_C7 (parse : Str → Option Parsed) (fmt : Str → Str)
    (cfg : AllowlistConfig) (sql : Str) (st : Parsed)
    (hp : parse sql = some st) (hne : st.stmtType ≠ "SELECT") :
    (QueryValidator.validate parse fmt cfg sql).is_valid = false ∧
    ("Only SELECT statements are allowed, got: " ++ st.stmtType) ∈
      (QueryValidator.validate parse fmt cfg sql).errors := by
  constructor
  · refine QueryValidator.validate_invalid_of_checksPass_false hp ?_
    simp [QueryValidator.checksPass, hne]
  · exact QueryValidator.validate_errors_mem hp
      (QueryValidator.runChecks_errors_stmt cfg sql _ hne)

/-- C7 witness: an INSERT statement is rejected with the message naming
INSERT. -/
theorem claim_C7_witness :
    (QueryValidator.validate wParseIns wFmt wCfg
      "INSERT INTO t VALUES (1)".toList).is_valid = false ∧
    ("Only SELECT statements are allowed, got: " ++ "INSERT") ∈
      (QueryValidator.validate wParseIns wFmt wCfg
        "INSERT INTO t VALUES (1)".toList).errors :=
  claim_C7 wParseIns wFmt wCfg "INSERT INTO t VALUES (1)".toList
    { stmtType := "INSERT", tables := ["t"], columns := [] } (by rfl) (by decide)

/-- C8: a query referencing a table whose uppercased name is not in
`allowed_tables` is rejected with a message naming that exact table; in
particular an empty allowlist rejects every query referencing any table. -/
theorem claim_C8 (parse : Str → Option Parsed) (fmt : Str → Str)
    (cfg : AllowlistConfig) (sql : Str) (st : Parsed)
    (hp : parse sql = some st) :
    (∀ t, t ∈ st.tables → strUp t ∉ cfg.allowed_tables →
      (QueryValidator.validate parse fmt cfg sql).is_valid = false ∧
      ("Table not in allowlist: " ++ t) ∈
        (QueryValidator.validate parse fmt cfg sql).errors) ∧
    (cfg.allowed_tables = [] → ∀ t, t ∈ st.tables →
      (QueryValidator.validate parse fmt cfg sql).is_valid = false) := by
  have main : ∀ t, t ∈ st.tables → strUp t ∉ cfg.allowed_tables →
      (QueryValidator.validate parse fmt cfg sql).is_valid = false ∧
      ("Table not in allowlist: " ++ t) ∈
        (QueryValidator.validate parse fmt cfg sql).errors := by
    intro t ht hmem
    have hf : cfg.allowed_tables.contains (strUp t) = false := by
      cases hc : cfg.allowed_tables.contains (strUp t) with
      | false => rfl
      | true => exact absurd (List.mem_of_elem_eq_true hc) hmem
    constructor
    · refine QueryValidator.validate_invalid_of_checksPass_false hp ?_
      have htp : QueryValidator.tablesPass cfg st.tables = false := by
        unfold QueryValidator.tablesPass
        exact List.all_eq_false.mpr ⟨t, ht,
          by intro hc; rw [hf] at hc; exact Bool.noConfusion hc⟩
      unfold QueryValidator.checksPass
      rw [htp]
      simp
    · exact QueryValidator.validate_errors_mem hp
        (QueryValidator.runChecks_errors_table sql _ ht hf)
  exact ⟨main, fun he t ht => (main t ht (by simp [he])).1⟩

/-- C8 witness: a query on `SensitiveData` under an allowlist holding only
`T` is rejected naming `SensitiveData`. -/
theorem claim_C8_witness :
    (QueryValidator.validate wParseBadT wFmt wCfg
      "SELECT * FROM SensitiveData".toList).is_valid = false ∧
    ("Table not in allowlist: " ++ "SensitiveData") ∈
      (QueryValidator.validate wParseBadT wFmt wCfg
        "SELECT * FROM SensitiveData".toList).errors :=
  (claim_C8 wParseBadT wFmt wCfg "SELECT * FROM SensitiveData".toList
    { stmtType := "SELECT", tables := ["SensitiveData"], columns := ["*"] }
    (by rfl)).1 "SensitiveData" (by decide) (by decide)

/-- `rstrip(";")` returns a prefix of its input. -/
theorem rstripSemis_pref (l : Str) : QueryValidator.rstripSemis l <+: l := by
  unfold QueryValidator.rstripSemis
  have h := List.reverse_prefix.mpr
    (List.dropWhile_suffix (l := l.reverse) (fun c => c = Char.ofNat 59))
  simpa using h

/-- `.strip()` returns an infix of its input. -/
theorem stripPyWs_isInf (l : Str) : QueryValidator.stripPyWs l <:+: l := by
  unfold QueryValidator.stripPyWs
  have h1 : ((l.dropWhile isPyWs).reverse.dropWhile isPyWs).reverse <+:
      l.dropWhile isPyWs := by
    have h := List.reverse_prefix.mpr
      (List.dropWhile_suffix (l := (l.dropWhile isPyWs).reverse) isPyWs)
    simpa using h
  exact h1.isInfix.trans (List.dropWhile_suffix isPyWs).isInfix

/-- Uppercasing maps infixes to infixes. -/
theorem upS_isInf {a b : Str} (h : a <:+: b) : upS a <:+: upS b := by
  obtain ⟨p, q, hpq⟩ := h
  exact ⟨upS p, upS q, by rw [← hpq, upS_append, upS_append]⟩

/-- The appended tail `" LIMIT {max};"` contributes exactly one
`LIMIT\s+\d+` match, with value `max`. -/
theorem limitMatches_tail (max : Nat) :
    limitMatches (' ' :: (limitStr max ++ [Char.ofNat 59])) = [max] := by
  have h0 : matchLimitNum (' ' :: (limitStr max ++ [Char.ofNat 59])) = none := rfl
  rw [limitMatches_cons_none h0]
  have h1 : matchLimitNum (limitStr max ++ [Char.ofNat 59]) =
      some (max, [Char.ofNat 59]) :=
    matchLimitNum_limitStr max (headNotDig_cons (by decide))
  have h2 : limitMatches (limitStr max ++ [Char.ofNat 59]) =
      max :: limitMatches [Char.ofNat 59] := limitMatches_cons_some h1
  rw [h2]
  rfl

/-- `_sanitize_sql` in the append case (`require_limit` on, no LIMIT in the
formatted text): the output is the stripped text plus `" LIMIT {max};"`,
and its LIMIT matches are exactly `[max_row_limit]`. -/
theorem sanitize_appends (fmt : Str → Str) (cfg : AllowlistConfig) (sql : Str)
    (hreq : cfg.require_limit = true)
    (hnc : containsSub (upS (fmt sql)) LIMITU = false) :
    QueryValidator.sanitize_sql fmt cfg sql =
      QueryValidator.stripPyWs (QueryValidator.rstripSemis (fmt sql)) ++
        (' ' :: (limitStr cfg.max_row_limit ++ [Char.ofNat 59])) ∧
    limitMatches (QueryValidator.sanitize_sql fmt cfg sql) =
      [cfg.max_row_limit] := by
  have hinf : QueryValidator.stripPyWs (QueryValidator.rstripSemis (fmt sql))
      <:+: fmt sql :=
    (stripPyWs_isInf _).trans (rstripSemis_pref (fmt sql)).isInfix
  have hncs : containsSub
      (upS (QueryValidator.stripPyWs (QueryValidator.rstripSemis (fmt sql))))
      LIMITU = false :=
    containsSub_false_of_infix (upS_isInf hinf) hnc
  have hlm : limitMatches
      (QueryValidator.stripPyWs (QueryValidator.rstripSemis (fmt sql)) ++
        (' ' :: (limitStr cfg.max_row_limit ++ [Char.ofNat 59]))) =
      [cfg.max_row_limit] := by
    rw [limitMatches_append_clean _ hncs]
    exact limitMatches_tail cfg.max_row_limit
  have hout : QueryValidator.sanitize_sql fmt cfg sql =
      QueryValidator.stripPyWs (QueryValidator.rstripSemis (fmt sql)) ++
        (' ' :: (limitStr cfg.max_row_limit ++ [Char.ofNat 59])) := by
    simp only [QueryValidator.sanitize_sql]
    rw [hreq, hnc]
    simp only [Bool.not_false, Bool.and_true, if_true]
    rw [hlm]
    simp only [List.head?_cons]
    rw [if_neg (by omega)]
  refine ⟨hout, ?_⟩
  rw [hout]
  exact hlm

/-- `_sanitize_sql` in the cap case: the formatted text already has a LIMIT
match, its first value exceeds the cap, and the `re.sub` rewrites every
LIMIT value to `max_row_limit`. -/
theorem sanitize_caps (fmt : Str → Str) (cfg : AllowlistConfig) (sql : Str)
    {v : Nat} {vs : List Nat}
    (hm : limitMatches (fmt sql) = v :: vs) (hv : v > cfg.max_row_limit) :
    QueryValidator.sanitize_sql fmt cfg sql =
      replaceAllLimit cfg.max_row_limit (fmt sql) ∧
    limitMatches (QueryValidator.sanitize_sql fmt cfg sql) =
      (limitMatches (fmt sql)).map (fun _ => cfg.max_row_limit) := by
  have hcs : containsSub (upS (fmt sql)) LIMITU = true :=
    containsSub_of_limitMatches_ne (by rw [hm]; exact List.cons_ne_nil v vs)
  have hout : QueryValidator.sanitize_sql fmt cfg sql =
      replaceAllLimit cfg.max_row_limit (fmt sql) := by
    simp only [QueryValidator.sanitize_sql]
    rw [hcs]
    simp only [Bool.not_true, Bool.and_false, Bool.false_eq_true, if_false]
    rw [hm]
    simp only [List.head?_cons]
    rw [if_pos hv]
  refine ⟨hout, ?_⟩
  rw [hout]
  exact limitMatches_replaceAllLimit cfg.max_row_limit (fmt sql)

/-- The output of `_sanitize_sql` never triggers a LIMIT warning on
revalidation: in every branch it either carries a single `LIMIT
max_row_limit` (appended or capped), keeps an in-range LIMIT, keeps a
non-numeric LIMIT occurrence, or `require_limit` is off. -/
theorem limitWarnings_sanitize (fmt : Str → Str) (cfg : AllowlistConfig)
    (sql : Str) :
    QueryValidator.limitWarnings cfg (QueryValidator.sanitize_sql fmt cfg sql) =
      [] := by
  by_cases hreq : cfg.require_limit = true
  · by_cases hnc : containsSub (upS (fmt sql)) LIMITU = false
    · obtain ⟨hout, hlm⟩ := sanitize_appends fmt cfg sql hreq hnc
      have hcs : containsSub
          (upS (QueryValidator.sanitize_sql fmt cfg sql)) LIMITU = true :=
        containsSub_of_limitMatches_ne (by rw [hlm]; simp)
      unfold QueryValidator.limitWarnings
      rw [if_pos hreq, if_neg (by simp [hcs]), limitMatches_upS, hlm]
      simp
    · have hcst : containsSub (upS (fmt sql)) LIMITU = true :=
        eq_true_of_ne_false hnc
      cases hh : (limitMatches (fmt sql)).head? with
      | none =>
        have hout : QueryValidator.sanitize_sql fmt cfg sql = fmt sql := by
          simp only [QueryValidator.sanitize_sql]
          rw [hcst]
          simp only [Bool.not_true, Bool.and_false, Bool.false_eq_true, if_false]
          rw [hh]
        rw [hout]
        unfold QueryValidator.limitWarnings
        rw [if_pos hreq, if_neg (by simp [hcst]), limitMatches_upS, hh]
      | some v =>
        have hcons : ∃ vs, limitMatches (fmt sql) = v :: vs := by
          cases hl : limitMatches (fmt sql) with
          | nil => rw [hl] at hh; exact absurd hh (by simp)
          | cons v2 vs =>
            rw [hl] at hh
            simp only [List.head?_cons, Option.some.injEq] at hh
            exact ⟨vs, by rw [hh]⟩
        obtain ⟨vs, hm⟩ := hcons
        by_cases hvgt : v > cfg.max_row_limit
        · obtain ⟨hout, hlm⟩ := sanitize_caps fmt cfg sql hm hvgt
          have hcs : containsSub
              (upS (QueryValidator.sanitize_sql fmt cfg sql)) LIMITU = true :=
            containsSub_of_limitMatches_ne (by rw [hlm, hm]; simp)
          unfold QueryValidator.limitWarnings
          rw [if_pos hreq, if_neg (by simp [hcs]), limitMatches_upS, hlm, hm]
          simp
        · have hout : QueryValidator.sanitize_sql fmt cfg sql = fmt sql := by
            simp only [QueryValidator.sanitize_sql]
            rw [hcst]
            simp only [Bool.not_true, Bool.and_false, Bool.false_eq_true, if_false]
            rw [hm]
            simp only [List.head?_cons]
            rw [if_neg hvgt]
          rw [hout]
          unfold QueryValidator.limitWarnings
          rw [if_pos hreq, if_neg (by simp [hcst]), limitMatches_upS, hm]
          simp only [List.head?_cons]
          rw [if_neg hvgt]
  · unfold QueryValidator.limitWarnings
    rw [if_neg hreq]

/-! ### Shared dict-model lemmas for the cache claims -/

/-- Assignment to a fresh key appends the entry. -/
theorem insertReplace_append_of_not_mem {K V : Type} [DecidableEq K]
    (key : K) (v : V) :
    ∀ l : List (K × V), key ∉ keysOf l → insertReplace key v l = l ++ [(key, v)] := by
  intro l
  induction l with
  | nil => intro _; rfl
  | cons p rest ih =>
    intro hmem
    obtain ⟨k, w⟩ := p
    simp only [keysOf, List.map_cons, List.mem_cons, not_or] at hmem
    simp only [insertReplace]
    rw [if_neg (fun h => hmem.1 h.symm)]
    rw [ih (by simpa [keysOf] using hmem.2)]
    rfl

/-- `del` of a key not present among the earlier entries removes exactly the
matching entry. -/
theorem eraseKey_append_of_not_mem {K V : Type} [DecidableEq K]
    (key : K) (v : V) :
    ∀ pre post : List (K × V), key ∉ keysOf pre →
    eraseKey key (pre ++ (key, v) :: post) = pre ++ post := by
  intro pre
  induction pre with
  | nil =>
    intro post _
    show eraseKey key ((key, v) :: post) = post
    simp [eraseKey]
  | cons p rest ih =>
    intro post hmem
    obtain ⟨k, w⟩ := p
    simp only [keysOf, List.map_cons, List.mem_cons, not_or] at hmem
    show eraseKey key ((k, w) :: (rest ++ (key, v) :: post)) = (k, w) :: (rest ++ post)
    simp only [eraseKey]
    rw [if_neg (fun h => hmem.1 h.symm)]
    rw [ih post (by simpa [keysOf] using hmem.2)]

/-- The first-wins minimum scan keeps its candidate when nothing beats it. -/
theorem oldestKeyAux_no_better :
    ∀ (l : SQLCache.Cache) (bk : Str) (bt : Nat),
    (∀ p ∈ l, ¬(p.2.timestamp < bt)) → SQLCache.oldestKeyAux bk bt l = bk := by
  intro l
  induction l with
  | nil => intro bk bt _; rfl
  | cons p rest ih =>
    intro bk bt h
    obtain ⟨k, e⟩ := p
    show SQLCache.oldestKeyAux bk bt ((k, e) :: rest) = bk
    simp only [SQLCache.oldestKeyAux]
    rw [if_neg (h (k, e) (List.mem_cons_self _ _))]
    exact ih bk bt (fun p hp => h p (List.mem_cons_of_mem _ hp))

/-- The first-wins minimum scan lands on a strictly minimal entry. -/
theorem oldestKeyAux_finds :
    ∀ (pre : SQLCache.Cache) (bk : Str) (bt : Nat) (k0 : Str)
      (e0 : SQLCache.Entry) (post : SQLCache.Cache),
    e0.timestamp < bt → (∀ p ∈ pre, e0.timestamp < p.2.timestamp) →
    (∀ p ∈ post, e0.timestamp < p.2.timestamp) →
    SQLCache.oldestKeyAux bk bt (pre ++ (k0, e0) :: post) = k0 := by
  intro pre
  induction pre with
  | nil =>
    intro bk bt k0 e0 post hbt _ hpost
    show SQLCache.oldestKeyAux bk bt ((k0, e0) :: post) = k0
    simp only [SQLCache.oldestKeyAux]
    rw [if_pos hbt]
    exact oldestKeyAux_no_better post k0 e0.timestamp
      (fun p hp => by have := hpost p hp; omega)
  | cons a pre ih =>
    intro bk bt k0 e0 post hbt hpre hpost
    obtain ⟨k, e⟩ := a
    show SQLCache.oldestKeyAux bk bt ((k, e) :: (pre ++ (k0, e0) :: post)) = k0
    simp only [SQLCache.oldestKeyAux]
    have he : e0.timestamp < e.timestamp := hpre (k, e) (List.mem_cons_self _ _)
    by_cases h : e.timestamp < bt
    · rw [if_pos h]
      exact ih k e.timestamp k0 e0 post he
        (fun p hp => hpre p (List.mem_cons_of_mem _ hp)) hpost
    · rw [if_neg h]
      exact ih bk bt k0 e0 post hbt
        (fun p hp => hpre p (List.mem_cons_of_mem _ hp)) hpost

/-- `min(cache.keys(), key=timestamp)` returns the key of an entry whose
timestamp is strictly below every other entry's. -/
theorem oldestKey_unique_min (pre post : SQLCache.Cache) (k0 : Str)
    (e0 : SQLCache.Entry)
    (hpre : ∀ p ∈ pre, e0.timestamp < p.2.timestamp)
    (hpost : ∀ p ∈ post, e0.timestamp < p.2.timestamp) :
    SQLCache.oldestKey (pre ++ (k0, e0) :: post) = k0 := by
  cases pre with
  | nil =>
    show SQLCache.oldestKey ((k0, e0) :: post) = k0
    simp only [SQLCache.oldestKey]
    exact oldestKeyAux_no_better post k0 e0.timestamp
      (fun p hp => by have := hpost p hp; omega)
  | cons a pre =>
    obtain ⟨k, e⟩ := a
    show SQLCache.oldestKey ((k, e) :: (pre ++ (k0, e0) :: post)) = k0
    simp only [SQLCache.oldestKey]
    exact oldestKeyAux_finds pre k e.timestamp k0 e0 post
      (hpre (k, e) (List.mem_cons_self _ _))
      (fun p hp => hpre p (List.mem_cons_of_mem _ hp)) hpost

/-- What `SemanticCache`'s eviction does to a full cache with distinct
keys: it keeps `length - 100` entries, and every dropped entry's
timestamp is at most every kept entry's. -/
theorem evictOldest100_spec {E : Type} (c : SemanticCache.Cache E)
    (hnd : (keysOf c).Nodup) :
    (SemanticCache.evictOldest100 c).length = c.length - 100 ∧
    ∀ p ∈ c, p ∉ SemanticCache.evictOldest100 c →
      ∀ p2 ∈ SemanticCache.evictOldest100 c, p.2.timestamp ≤ p2.2.timestamp := by
  set S := List.insertionSort
    (fun a b : Str × SemanticCache.Entry E => a.2.timestamp ≤ b.2.timestamp) c
    with hS
  set P : Str × SemanticCache.Entry E → Bool :=
    fun p => !(((S.take 100).map (fun p => p.1)).contains p.1) with hP
  have hev : SemanticCache.evictOldest100 c = c.filter P := by
    rw [hP, hS]
    rfl
  haveI htot : IsTotal (Str × SemanticCache.Entry E)
      (fun a b => a.2.timestamp ≤ b.2.timestamp) :=
    ⟨fun a b => Nat.le_total _ _⟩
  haveI htr : IsTrans (Str × SemanticCache.Entry E)
      (fun a b => a.2.timestamp ≤ b.2.timestamp) :=
    ⟨fun _ _ _ hab hbc => Nat.le_trans hab hbc⟩
  have hperm : List.Perm S c := List.perm_insertionSort _ c
  have hsorted : S.Sorted (fun a b => a.2.timestamp ≤ b.2.timestamp) :=
    List.sorted_insertionSort _ c
  have hndc : (c.map (fun p => p.1)).Nodup := hnd
  have hndS : (S.map (fun p => p.1)).Nodup :=
    (hperm.map (fun p => p.1)).nodup_iff.mpr hndc
  have hkeys_disj : ∀ p ∈ S.drop 100, p.1 ∉ (S.take 100).map (fun p => p.1) := by
    intro p hp hmem
    have hsplit : (S.take 100).map (fun p => p.1) ++
        (S.drop 100).map (fun p => p.1) = S.map (fun p => p.1) := by
      rw [← List.map_append, List.take_append_drop]
    have hnd2 : ((S.take 100).map (fun p => p.1) ++
        (S.drop 100).map (fun p => p.1)).Nodup := by
      rw [hsplit]
      exact hndS
    exact (List.nodup_append.mp hnd2).2.2 hmem (List.mem_map_of_mem _ hp)
  have hfilter_take : (S.take 100).filter P = [] := by
    apply List.filter_eq_nil_iff.mpr
    intro p hp
    show ¬(!(((S.take 100).map (fun p => p.1)).contains p.1)) = true
    rw [show (((S.take 100).map (fun p => p.1)).contains p.1) = true from
      List.elem_eq_true_of_mem (List.mem_map_of_mem _ hp)]
    simp
  have hfilter_drop : (S.drop 100).filter P = S.drop 100 := by
    apply List.filter_eq_self.mpr
    intro p hp
    show (!(((S.take 100).map (fun p => p.1)).contains p.1)) = true
    have hc : ((S.take 100).map (fun p => p.1)).contains p.1 = false := by
      cases hcc : ((S.take 100).map (fun p => p.1)).contains p.1 with
      | false => rfl
      | true => exact absurd (List.mem_of_elem_eq_true hcc) (hkeys_disj p hp)
    rw [hc]
    rfl
  have hfS : S.filter P = S.drop 100 := by
    have h1 : S.filter P = (S.take 100 ++ S.drop 100).filter P := by
      rw [List.take_append_drop]
    rw [h1, List.filter_append, hfilter_take, hfilter_drop, List.nil_append]
  have hfperm : List.Perm (SemanticCache.evictOldest100 c) (S.drop 100) := by
    rw [hev, ← hfS]
    exact (hperm.filter _).symm
  constructor
  · rw [hfperm.length_eq, List.length_drop, hperm.length_eq]
  · intro p hp hpnot p2 hp2
    have hpS : p ∈ S := hperm.mem_iff.mpr hp
    have hPfalse : P p = false := by
      cases hPP : P p with
      | false => rfl
      | true =>
        exact absurd (by rw [hev]; exact List.mem_filter.mpr ⟨hp, hPP⟩) hpnot
    have hPfalse2 : (!(((S.take 100).map (fun p => p.1)).contains p.1)) = false :=
      hPfalse
    have hcontains : ((S.take 100).map (fun p => p.1)).contains p.1 = true := by
      cases hcc : ((S.take 100).map (fun p => p.1)).contains p.1 with
      | true => rfl
      | false => rw [hcc] at hPfalse2; exact absurd hPfalse2 (by simp)
    obtain ⟨p3, hp3, hp3key⟩ := List.mem_map.mp (List.mem_of_elem_eq_true hcontains)
    have hp3S : p3 ∈ S := (List.take_sublist 100 S).subset hp3
    have hpp3 : p3 = p := List.inj_on_of_nodup_map hndS hp3S hpS hp3key
    have hptake : p ∈ S.take 100 := hpp3 ▸ hp3
    have hp2drop : p2 ∈ S.drop 100 := hfperm.mem_iff.mp hp2
    have hsplit := hsorted
    rw [show S = S.take 100 ++ S.drop 100 from (List.take_append_drop 100 S).symm]
      at hsplit
    rw [List.Sorted, List.pairwise_append] at hsplit
    exact hsplit.2.2 p hptake p2 hp2drop

/-! ### Digit-string helpers for the cache fixtures -/

theorem lowC_of_dig {c : Char} (h : isDig c = true) : lowC c = c := by
  unfold lowC
  rw [dif_neg (by
    simp only [isDig, Bool.and_eq_true, decide_eq_true_eq] at h
    omega)]

theorem lowS_of_all_dig {l : Str} (h : ∀ c ∈ l, isDig c = true) :
    lowS l = l := by
  unfold lowS
  rw [List.map_congr_left (fun c hc => lowC_of_dig (h c hc))]
  exact List.map_id _

theorem dropWhile_eq_self_of_all {p : Char → Bool} :
    ∀ l : Str, (∀ c ∈ l, p c = false) → l.dropWhile p = l := by
  intro l h
  cases l with
  | nil => rfl
  | cons c cs =>
    exact List.dropWhile_cons_of_neg
      (by rw [h c (List.mem_cons_self c cs)]; simp)

theorem stripPyWs_of_all_dig {l : Str} (h : ∀ c ∈ l, isDig c = true) :
    QueryValidator.stripPyWs l = l := by
  unfold QueryValidator.stripPyWs
  have h1 : ∀ c ∈ l, isPyWs c = false := fun c hc => ws_of_dig_false (h c hc)
  rw [dropWhile_eq_self_of_all l h1,
    dropWhile_eq_self_of_all l.reverse (fun c hc => h1 c (List.mem_reverse.mp hc)),
    List.reverse_reverse]

theorem renderNat_inj {a b : Nat} (h : renderNat a = renderNat b) : a = b := by
  rw [← digitsToNat_renderNat a, ← digitsToNat_renderNat b, h]

theorem renderNat_ne_k (i : Nat) : renderNat i ≠ ['k'] := by
  intro h
  have hd := renderNat_all_dig i 'k' (by rw [h]; exact List.mem_singleton.mpr rfl)
  exact absurd hd (by decide)

/-! ### The SemanticCache fill sequence -/

/-- The `i`-th cache entry of the fill: key `str(i)`, timestamp `i`. -/
def semEntry (i : Nat) : Str × SemanticCache.Entry Unit :=
  (renderNat i,
   { sql := [], timestamp := i, question := renderNat i, embedding := none })

/-- Identity md5 oracle (digit strings are already distinct keys). -/
def semMd5 : Str → Str := fun l => l

/-- Embedding oracle that always fails (the entry is stored regardless). -/
def semEmbed : Str → Option Unit := fun _ => none

/-- Insert `n` distinct entries (questions `str(0) .. str(n-1)`, timestamps
`0 .. n-1`) into an initially empty `SemanticCache`. -/
def semFill (n : Nat) : SemanticCache.Cache Unit :=
  (List.range n).foldl
    (fun c i => SemanticCache.set semMd5 semEmbed c (renderNat i) [] i) []

theorem semKey_id (q : Str) (h : ∀ c ∈ q, isDig c = true) :
    SemanticCache.get_key semMd5 q = q := by
  unfold SemanticCache.get_key semMd5
  rw [lowS_of_all_dig h, stripPyWs_of_all_dig h]

theorem semFill_succ (n : Nat) :
    semFill (n + 1) =
      SemanticCache.set semMd5 semEmbed (semFill n) (renderNat n) [] n := by
  unfold semFill
  rw [List.range_succ, List.foldl_append]
  rfl

/-- Up to capacity, the fill is the literal association list. -/
theorem semFill_below : ∀ n, n ≤ 1000 →
    semFill n = (List.range n).map semEntry := by
  intro n
  induction n with
  | zero => intro _; rfl
  | succ m ih =>
    intro h
    rw [semFill_succ, ih (by omega)]
    simp only [SemanticCache.set]
    rw [semKey_id (renderNat m) (renderNat_all_dig m)]
    rw [if_neg (by
      simp only [List.length_map, List.length_range, ge_iff_le]
      omega)]
    have hfresh : renderNat m ∉ keysOf ((List.range m).map semEntry) := by
      intro hmem
      simp only [keysOf, List.map_map, List.mem_map] at hmem
      obtain ⟨i, hi, hkey⟩ := hmem
      have him : i = m := renderNat_inj hkey
      rw [him] at hi
      exact absurd (List.mem_range.mp hi) (by omega)
    rw [insertReplace_append_of_not_mem _ _ _ hfresh, List.range_succ,
      List.map_append]
    rfl

/-- The sorted order of the fill is the insertion order (timestamps are
increasing). -/
theorem semSorted : ((List.range 1000).map semEntry).Sorted
    (fun a b : Str × SemanticCache.Entry Unit =>
      a.2.timestamp ≤ b.2.timestamp) := by
  exact List.Pairwise.map semEntry
    (fun a b hab => Nat.le_of_lt hab) (List.pairwise_lt_range 1000)

/-- Eviction on the full fill removes exactly the 100 oldest entries
(indices 0–99). -/
theorem evict_semFull :
    SemanticCache.evictOldest100 ((List.range 1000).map semEntry) =
      (List.range 900).map (fun j => semEntry (100 + j)) := by
  haveI htot : IsTotal (Str × SemanticCache.Entry Unit)
      (fun a b => a.2.timestamp ≤ b.2.timestamp) :=
    ⟨fun a b => Nat.le_total _ _⟩
  haveI htr : IsTrans (Str × SemanticCache.Entry Unit)
      (fun a b => a.2.timestamp ≤ b.2.timestamp) :=
    ⟨fun _ _ _ hab hbc => Nat.le_trans hab hbc⟩
  have hins : List.insertionSort
      (fun a b : Str × SemanticCache.Entry Unit =>
        a.2.timestamp ≤ b.2.timestamp)
      ((List.range 1000).map semEntry) = (List.range 1000).map semEntry :=
    List.Sorted.insertionSort_eq semSorted
  have htake : ((List.range 1000).map semEntry).take 100 =
      (List.range 100).map semEntry := by
    rw [(List.map_take semEntry (List.range 1000) 100).symm, List.take_range]
    rfl
  simp only [SemanticCache.evictOldest100]
  rw [hins, htake, List.map_map, List.filter_map]
  have hcong : ∀ i ∈ List.range 1000,
      ((fun p : Str × SemanticCache.Entry Unit =>
        !(((List.range 100).map ((fun p : Str × SemanticCache.Entry Unit => p.1)
          ∘ semEntry)).contains p.1)) ∘ semEntry) i =
      (fun i => !(decide (i < 100))) i := by
    intro i _
    show (!(((List.range 100).map
      ((fun p : Str × SemanticCache.Entry Unit => p.1) ∘ semEntry)).contains
        (renderNat i))) = !(decide (i < 100))
    by_cases hi : i < 100
    · rw [show ((List.range 100).map ((fun p : Str × SemanticCache.Entry Unit =>
          p.1) ∘ semEntry)).contains (renderNat i) = true from
        List.elem_eq_true_of_mem
          (List.mem_map.mpr ⟨i, List.mem_range.mpr hi, rfl⟩)]
      simp [hi]
    · have hcc : ((List.range 100).map
          ((fun p : Str × SemanticCache.Entry Unit => p.1) ∘ semEntry)).contains
            (renderNat i) = false := by
        cases hc : ((List.range 100).map
            ((fun p : Str × SemanticCache.Entry Unit => p.1) ∘ semEntry)).contains
              (renderNat i) with
        | false => rfl
        | true =>
          obtain ⟨j, hj, hkey⟩ := List.mem_map.mp (List.mem_of_elem_eq_true hc)
          have hji : j = i := renderNat_inj hkey
          rw [hji] at hj
          exact absurd (List.mem_range.mp hj) hi
      rw [hcc]
      simp [hi]
  rw [List.filter_congr hcong]
  have hfr : (List.range 1000).filter (fun i => !(decide (i < 100))) =
      (List.range 900).map (fun j => 100 + j) := by
    rw [show (1000 : Nat) = 100 + 900 from rfl, List.range_add,
      List.filter_append]
    rw [List.filter_eq_nil_iff.mpr
      (fun i hi => by simp [List.mem_range.mp hi]), List.nil_append]
    rw [List.filter_map (fun j => 100 + j)]
    rw [List.filter_eq_self.mpr (fun j _ => by simp)]
  rw [hfr, List.map_map]
  rfl

/-- Identity md5 oracle for the cache witnesses. -/
def wMd5 : Str → Str := fun l => l

def wQ : Str := "show revenue 2024".toList

def wSql : Str := "SELECT 1".toList

/-- C9: pattern-cache round trip with TTL — after `set q sql` at time `now`,
a `get q` strictly within the TTL returns `sql`, and a `get q` once the TTL
(7 days) has elapsed returns `none`. -/
theorem claim_C9 (md5 : Str → Str) (cache : SQLCache.Cache) (q sql : Str)
    (now now2 now3 : Nat) :
    (now2 - now < SQLCache.ttl →
      (SQLCache.get md5 (SQLCache.set md5 cache q sql now) q now2).1 = some sql) ∧
    (now3 - now ≥ SQLCache.ttl →
      (SQLCache.get md5 (SQLCache.set md5 cache q sql now) q now3).1 = none) := by
  have hl : List.lookup (SQLCache.get_key md5 q)
      (SQLCache.set md5 cache q sql now) =
      some { sql := sql, timestamp := now, question := q } := by
    unfold SQLCache.set
    exact lookup_insertReplace _ _ _
  constructor
  · intro h
    simp [SQLCache.get, hl, h]
  · intro h
    have hnot : ¬(now3 - now < SQLCache.ttl) := not_lt.mpr h
    simp [SQLCache.get, hl, hnot]

/-- C9 witness: a concrete round trip through the cache, read back one
second later and again exactly at the TTL. -/
theorem claim_C9_witness :
    ((SQLCache.get wMd5 (SQLCache.set wMd5 [] wQ wSql 0) wQ 1).1 = some wSql) ∧
    ((SQLCache.get wMd5 (SQLCache.set wMd5 [] wQ wSql 0) wQ SQLCache.ttl).1 = none) :=
  ⟨(claim_C9 wMd5 [] wQ wSql 0 1 SQLCache.ttl).1 (by decide),
   (claim_C9 wMd5 [] wQ wSql 0 1 SQLCache.ttl).2 (by decide)⟩

/-- Data source that reports no tables at all. -/
def wDS : SchemaDiscovery.DataSourceOracle :=
  { get_schema := fun _ => [], row_count := fun _ => none,
    column_statistics := fun _ _ => {} }

def wSchemaOld : EnrichedTableSchema := { name := "old", columns := [] }

/-- A schema cache holding one entry (written at time 0) that is expired by
time 3600 under the default 60-minute TTL. -/
def wCacheExp : SchemaDiscovery.SchemaCacheState :=
  { entries := [("schema:t:False", (wSchemaOld, 0))], ttl_minutes := 60 }

/-- C10 (counterexample to the claim as stated): requesting an unknown
table makes `get_table_schema` fail with `SchemaDiscoveryError` — the
module defines no `SchemaNotFoundError`, so the error is not the
spec-modelled `schemaNotFoundError` for any message — and the failed
request is NOT a no-op on the schema cache: the read deletes the expired
entry under the request's key, so the cache state changes. -/
theorem claim_C10_counterexample :
    (SchemaDiscovery.get_table_schema wDS wCacheExp 3600 "t" false).1 =
      .error (.schemaDiscoveryError ("Table " ++ sqS ++ "t" ++ sqS ++ " not found")) ∧
    (∀ m, (SchemaDiscovery.get_table_schema wDS wCacheExp 3600 "t" false).1 ≠
      .error (.schemaNotFoundError m)) ∧
    (SchemaDiscovery.get_table_schema wDS wCacheExp 3600 "t" false).2 ≠ wCacheExp := by
  refine ⟨by rfl, ?_, by decide⟩
  intro m h
  rw [show (SchemaDiscovery.get_table_schema wDS wCacheExp 3600 "t" false).1 =
    .error (.schemaDiscoveryError ("Table " ++ sqS ++ "t" ++ sqS ++ " not found"))
    from rfl] at h
  simp at h

/-- C10 (amended): when the cache reports a miss for the request's key and
the data source does not report the table, `get_table_schema` fails with
`SchemaDiscoveryError` (message naming the table); the resulting cache
state is exactly the state left by the cache read — unchanged except that
an expired entry under the request's key has been deleted. -/
theorem claim_C10 (ds : SchemaDiscovery.DataSourceOracle)
    (c : SchemaDiscovery.SchemaCacheState) (now : Nat)
    (table_name : String) (include_statistics : Bool)
    (hmiss : (SchemaDiscovery.cache_get c
      ("schema:" ++ table_name ++ ":" ++ SchemaDiscovery.pyBool include_statistics)
      now).1 = none)
    (hunknown : List.lookup table_name (ds.get_schema (some table_name)) = none) :
    SchemaDiscovery.get_table_schema ds c now table_name include_statistics =
      (.error (.schemaDiscoveryError
        ("Table " ++ sqS ++ table_name ++ sqS ++ " not found")),
       (SchemaDiscovery.cache_get c
         ("schema:" ++ table_name ++ ":" ++ SchemaDiscovery.pyBool include_statistics)
         now).2) ∧
    ∀ m, (SchemaDiscovery.get_table_schema ds c now table_name
      include_statistics).1 ≠ .error (.schemaNotFoundError m) := by
  rcases hcg : SchemaDiscovery.cache_get c
      ("schema:" ++ table_name ++ ":" ++ SchemaDiscovery.pyBool include_statistics)
      now with ⟨o, c1⟩
  rw [hcg] at hmiss
  simp only at hmiss
  subst hmiss
  have heq : SchemaDiscovery.get_table_schema ds c now table_name
      include_statistics =
      (.error (.schemaDiscoveryError
        ("Table " ++ sqS ++ table_name ++ sqS ++ " not found")), c1) := by
    simp only [SchemaDiscovery.get_table_schema]
    rw [hcg, hunknown]
  refine ⟨?_, ?_⟩
  · rw [heq]
  · intro m h
    rw [heq] at h
    simp at h

/-- C10 witness: the amended theorem at the concrete expired-entry cache
and empty data source. -/
theorem claim_C10_witness :
    SchemaDiscovery.get_table_schema wDS wCacheExp 3600 "t" false =
      (.error (.schemaDiscoveryError
        ("Table " ++ sqS ++ "t" ++ sqS ++ " not found")),
       (SchemaDiscovery.cache_get wCacheExp
         ("schema:" ++ "t" ++ ":" ++ SchemaDiscovery.pyBool false) 3600).2) ∧
    ∀ m, (SchemaDiscovery.get_table_schema wDS wCacheExp 3600 "t" false).1 ≠
      .error (.schemaNotFoundError m) :=
  claim_C10 wDS wCacheExp 3600 "t" false (by decide) (by rfl)

/-- Configuration with `require_limit` off. -/
def wCfgNoReq : AllowlistConfig :=
  { allowed_tables := ["T"], max_row_limit := 100, require_limit := false }

def wNoLim : Str := "SELECT * FROM t".toList

/-- C5 (counterexample to the claim as stated): with `require_limit = False`
the appending branch of `_sanitize_sql` is skipped, so a query that
`validate` judges valid and that contains no LIMIT clause comes back with a
`sanitized_sql` containing no LIMIT clause at all — the claim omits the
`require_limit` gate. -/
theorem claim_C5_counterexample :
    (QueryValidator.validate wParse wFmt wCfgNoReq wNoLim).is_valid = true ∧
    (QueryValidator.validate wParse wFmt wCfgNoReq wNoLim).sanitized_sql =
      some wNoLim ∧
    containsSub (upS wNoLim) LIMITU = false ∧
    limitMatches wNoLim = [] :=
  ⟨by decide, by rfl, by decide, by rfl⟩

/-- C5 (amended): for a query that `validate` judges valid, `sanitized_sql`
is the output of `_sanitize_sql`; when `require_limit` is on and the
formatted query has no LIMIT clause, that output has exactly one
`LIMIT \d+` match, whose value is `max_row_limit`; and when the formatted
query's first `LIMIT \d+` match exceeds `max_row_limit`, every `LIMIT \d+`
match of the output has value `max_row_limit`. -/
theorem claim_C5 (parse : Str → Option Parsed) (fmt : Str → Str)
    (cfg : AllowlistConfig) (sql : Str) (st : Parsed)
    (hp : parse sql = some st)
    (hv : (QueryValidator.validate parse fmt cfg sql).is_valid = true) :
    (QueryValidator.validate parse fmt cfg sql).sanitized_sql =
      some (QueryValidator.sanitize_sql fmt cfg sql) ∧
    (cfg.require_limit = true → containsSub (upS (fmt sql)) LIMITU = false →
      limitMatches (QueryValidator.sanitize_sql fmt cfg sql) =
        [cfg.max_row_limit]) ∧
    (∀ v vs, limitMatches (fmt sql) = v :: vs → v > cfg.max_row_limit →
      limitMatches (QueryValidator.sanitize_sql fmt cfg sql) =
        (limitMatches (fmt sql)).map (fun _ => cfg.max_row_limit)) := by
  obtain ⟨hpass, hinj⟩ := QueryValidator.validate_valid_inversion hp hv
  refine ⟨?_, ?_, ?_⟩
  · rw [QueryValidator.validate_eq_of_pass hp hpass hinj]
  · intro hreq hnc
    exact (sanitize_appends fmt cfg sql hreq hnc).2
  · intro v vs hm hvgt
    exact (sanitize_caps fmt cfg sql hm hvgt).2

/-- C5 witness: the amended theorem at a valid query with no LIMIT clause
under the default `require_limit = True` policy. -/
theorem claim_C5_witness :
    (QueryValidator.validate wParse wFmt wCfg wNoLim).sanitized_sql =
      some (QueryValidator.sanitize_sql wFmt wCfg wNoLim) ∧
    (wCfg.require_limit = true → containsSub (upS (wFmt wNoLim)) LIMITU = false →
      limitMatches (QueryValidator.sanitize_sql wFmt wCfg wNoLim) =
        [wCfg.max_row_limit]) ∧
    (∀ v vs, limitMatches (wFmt wNoLim) = v :: vs → v > wCfg.max_row_limit →
      limitMatches (QueryValidator.sanitize_sql wFmt wCfg wNoLim) =
        (limitMatches (wFmt wNoLim)).map (fun _ => wCfg.max_row_limit)) :=
  claim_C5 wParse wFmt wCfg wNoLim
    { stmtType := "SELECT", tables := ["t"], columns := ["*"] }
    (by rfl) (by decide)

/-- Configuration whose blocked-keyword list contains `LIMIT` itself. -/
def wCfgBlockLim : AllowlistConfig :=
  { allowed_tables := ["T"], max_row_limit := 100, blocked_keywords := ["LIMIT"] }

/-- The sanitized output of `wNoLim` under a 100-row policy. -/
def wOut6 : Str := "SELECT * FROM t LIMIT 100;".toList

/-- C6 (counterexample to the claim as stated): with `LIMIT` itself in
`blocked_keywords`, the first validation passes (the input has no LIMIT
clause, so the blocked-keyword scan finds nothing) and sanitization appends
`LIMIT 100;` — but validating that `sanitized_sql` again with the same
config now trips the blocked-keyword check, so the second run returns
`is_valid = false`: sanitization is not a fixed point for every config. -/
theorem claim_C6_counterexample :
    (QueryValidator.validate wParse wFmt wCfgBlockLim wNoLim).is_valid = true ∧
    (QueryValidator.validate wParse wFmt wCfgBlockLim wNoLim).sanitized_sql =
      some wOut6 ∧
    (QueryValidator.validate wParse wFmt wCfgBlockLim wOut6).is_valid = false :=
  ⟨by decide, by rfl, by decide⟩

/-- C6 (amended): revalidating `sanitized_sql` with the same config yields
`is_valid = true` with no warnings and no errors, provided the second run
sees the same parsed statement and the sanitized text itself stays clear of
the purely textual checks (blocked keywords, subquery/join scans, injection
scan) — the LIMIT warning can never reappear on sanitized output. -/
theorem claim_C6 (parse : Str → Option Parsed) (fmt : Str → Str)
    (cfg : AllowlistConfig) (sql : Str) (st : Parsed)
    (hp : parse sql = some st)
    (hv : (QueryValidator.validate parse fmt cfg sql).is_valid = true)
    (hp2 : parse (QueryValidator.sanitize_sql fmt cfg sql) = some st)
    (hbk : (QueryValidator.blockedMatches cfg.blocked_keywords
      (QueryValidator.sanitize_sql fmt cfg sql)).isEmpty = true)
    (hsc : (cfg.allow_subqueries ||
      !(QueryValidator.selectCount (QueryValidator.sanitize_sql fmt cfg sql) > 1)) = true)
    (hjn : (cfg.allow_joins ||
      !(QueryValidator.joinPresent (QueryValidator.sanitize_sql fmt cfg sql))) = true)
    (hinj2 : injectionHit (QueryValidator.sanitize_sql fmt cfg sql) = false) :
    (QueryValidator.validate parse fmt cfg
      (QueryValidator.sanitize_sql fmt cfg sql)).is_valid = true ∧
    (QueryValidator.validate parse fmt cfg
      (QueryValidator.sanitize_sql fmt cfg sql)).warnings = [] ∧
    (QueryValidator.validate parse fmt cfg
      (QueryValidator.sanitize_sql fmt cfg sql)).errors = [] := by
  obtain ⟨hpass, _⟩ := QueryValidator.validate_valid_inversion hp hv
  unfold QueryValidator.checksPass at hpass
  rw [Bool.and_eq_true, Bool.and_eq_true, Bool.and_eq_true, Bool.and_eq_true,
    Bool.and_eq_true] at hpass
  obtain ⟨⟨⟨⟨⟨h1, _⟩, h3⟩, h4⟩, _⟩, _⟩ := hpass
  have hpass2 : QueryValidator.checksPass cfg st
      (QueryValidator.sanitize_sql fmt cfg sql) = true := by
    unfold QueryValidator.checksPass
    rw [Bool.and_eq_true, Bool.and_eq_true, Bool.and_eq_true, Bool.and_eq_true,
      Bool.and_eq_true]
    exact ⟨⟨⟨⟨⟨h1, hbk⟩, h3⟩, h4⟩, hsc⟩, hjn⟩
  rw [QueryValidator.validate_eq_of_pass hp2 hpass2 hinj2]
  refine ⟨rfl, ?_, rfl⟩
  exact limitWarnings_sanitize fmt cfg sql

/-- C6 witness: the amended theorem under the default policy on a valid
query with no LIMIT clause; the sanitized output revalidates cleanly. -/
theorem claim_C6_witness :
    (QueryValidator.validate wParse wFmt wCfg
      (QueryValidator.sanitize_sql wFmt wCfg wNoLim)).is_valid = true ∧
    (QueryValidator.validate wParse wFmt wCfg
      (QueryValidator.sanitize_sql wFmt wCfg wNoLim)).warnings = [] ∧
    (QueryValidator.validate wParse wFmt wCfg
      (QueryValidator.sanitize_sql wFmt wCfg wNoLim)).errors = [] :=
  claim_C6 wParse wFmt wCfg wNoLim
    { stmtType := "SELECT", tables := ["t"], columns := ["*"] }
    (by rfl) (by decide) (by rfl) (by decide) (by decide) (by decide) (by decide)

/-- Constant md5 oracle whose output (`"k"`) is never a digit-string key. -/
def wMd5k : Str → Str := fun _ => ['k']

/-- The strictly oldest entry of the C4 witness cache. -/
def wE0 : SQLCache.Entry := { sql := [], timestamp := 0, question := [] }

/-- 999 younger entries with distinct digit-string keys. -/
def wPost : SQLCache.Cache :=
  (List.range 999).map
    (fun i => (renderNat i, { sql := [], timestamp := i + 1, question := [] }))

/-- A full 1000-entry semantic cache with distinct digit-string keys. -/
def wSemC : SemanticCache.Cache Unit :=
  (List.range 1000).map
    (fun i => (renderNat i,
      { sql := [], timestamp := i, question := [], embedding := none }))

/-- C4 (counterexample to the claim as stated): inserting 1001 distinct
entries (fresh keys `str(0) .. str(1000)`, fresh timestamps `0 .. 1000`)
into an empty `SemanticCache` does NOT leave `max_size = 1000` entries with
the single oldest removed — the 1001st insert evicts the 100 oldest at
once, leaving exactly 901 entries (indices 100–999 plus the new one). -/
theorem claim_C4_counterexample :
    semFill 1001 =
      (List.range 900).map (fun j => semEntry (100 + j)) ++ [semEntry 1000] ∧
    (semFill 1001).length = 901 := by
  have h1 : semFill 1001 =
      SemanticCache.set semMd5 semEmbed ((List.range 1000).map semEntry)
        (renderNat 1000) [] 1000 := by
    rw [semFill_succ 1000, semFill_below 1000 (Nat.le_refl _)]
  have hset : semFill 1001 =
      SemanticCache.evictOldest100 ((List.range 1000).map semEntry) ++
        [(renderNat 1000,
          { sql := [], timestamp := 1000, question := renderNat 1000,
            embedding := none })] := by
    rw [h1]
    simp only [SemanticCache.set]
    rw [semKey_id _ (renderNat_all_dig 1000)]
    rw [if_pos (by simp [List.length_map, List.length_range])]
    have hfresh : renderNat 1000 ∉
        keysOf (SemanticCache.evictOldest100 ((List.range 1000).map semEntry)) := by
      rw [evict_semFull]
      intro hmem
      simp only [keysOf, List.map_map, List.mem_map] at hmem
      obtain ⟨j, hj, hkey⟩ := hmem
      have hjeq : 100 + j = 1000 := renderNat_inj hkey
      have hj9 := List.mem_range.mp hj
      omega
    rw [insertReplace_append_of_not_mem _ _ _ hfresh]
    rfl
  constructor
  · rw [hset, evict_semFull]
    rfl
  · rw [hset, evict_semFull]
    simp

/-- C4 (amended): the two caches evict differently. `SQLCache.set` on a
full cache holding an entry with a strictly minimal timestamp removes
exactly that single oldest entry and appends the new one, keeping the size
at `max_size`. `SemanticCache.set` on a full cache (1000 entries, distinct
keys) evicts 100 entries at once before inserting, leaving 901 entries; the
dropped entries are oldest first — every evicted timestamp is at most every
kept timestamp. -/
theorem claim_C4 :
    (∀ (md5 : Str → Str) (q sql : Str) (now : Nat)
      (pre post : SQLCache.Cache) (k0 : Str) (e0 : SQLCache.Entry),
      (∀ p ∈ pre, e0.timestamp < p.2.timestamp) →
      (∀ p ∈ post, e0.timestamp < p.2.timestamp) →
      k0 ∉ keysOf pre →
      SQLCache.get_key md5 q ∉ keysOf (pre ++ post) →
      (pre ++ (k0, e0) :: post).length = SQLCache.max_size →
      SQLCache.set md5 (pre ++ (k0, e0) :: post) q sql now =
        (pre ++ post) ++
          [(SQLCache.get_key md5 q,
            { sql := sql, timestamp := now, question := q })] ∧
      (SQLCache.set md5 (pre ++ (k0, e0) :: post) q sql now).length =
        SQLCache.max_size) ∧
    (∀ (E : Type) (md5 : Str → Str) (embed : Str → Option E)
      (c : SemanticCache.Cache E) (q sql : Str) (now : Nat),
      (keysOf c).Nodup →
      SemanticCache.get_key md5 q ∉ keysOf c →
      c.length = 1000 →
      (SemanticCache.set md5 embed c q sql now).length = 901 ∧
      (∀ p ∈ c, p ∉ SemanticCache.evictOldest100 c →
        ∀ p2 ∈ SemanticCache.evictOldest100 c,
          p.2.timestamp ≤ p2.2.timestamp)) := by
  constructor
  · intro md5 q sql now pre post k0 e0 hpre hpost hk0 hfresh hlen
    have hok : SQLCache.oldestKey (pre ++ (k0, e0) :: post) = k0 :=
      oldestKey_unique_min pre post k0 e0 hpre hpost
    have hge : (pre ++ (k0, e0) :: post).length ≥ SQLCache.max_size :=
      le_of_eq hlen.symm
    have hset : SQLCache.set md5 (pre ++ (k0, e0) :: post) q sql now =
        insertReplace (SQLCache.get_key md5 q)
          { sql := sql, timestamp := now, question := q } (pre ++ post) := by
      simp only [SQLCache.set]
      rw [if_pos hge, hok, eraseKey_append_of_not_mem k0 e0 pre post hk0]
    constructor
    · rw [hset, insertReplace_append_of_not_mem _ _ _ hfresh]
    · rw [hset, insertReplace_append_of_not_mem _ _ _ hfresh]
      simp only [List.length_append, List.length_cons] at hlen ⊢
      simp only [List.length_nil]
      omega
  · intro E md5 embed c q sql now hnd hfresh hlen
    obtain ⟨hevlen, hts⟩ := evictOldest100_spec c hnd
    have hsub : List.Sublist (SemanticCache.evictOldest100 c) c :=
      List.filter_sublist c
    have hfresh2 : SemanticCache.get_key md5 q ∉
        keysOf (SemanticCache.evictOldest100 c) :=
      fun h => hfresh ((hsub.map (fun p => p.1)).subset h)
    have hset : SemanticCache.set md5 embed c q sql now =
        SemanticCache.evictOldest100 c ++
          [(SemanticCache.get_key md5 q,
            { sql := sql, timestamp := now, question := q,
              embedding := embed q })] := by
      simp only [SemanticCache.set]
      rw [if_pos (by omega), insertReplace_append_of_not_mem _ _ _ hfresh2]
    refine ⟨?_, hts⟩
    rw [hset, List.length_append, hevlen, hlen]
    rfl

/-- C4 witness: both halves of the amended theorem at concrete caches — a
full `SQLCache` whose oldest entry has timestamp 0 against 999 younger
entries, and a full 1000-entry `SemanticCache` with distinct keys. -/
theorem claim_C4_witness :
    (SQLCache.set wMd5k ([] ++ (['z'], wE0) :: wPost) [] [] 500 =
      ([] ++ wPost) ++
        [(SQLCache.get_key wMd5k [],
          { sql := [], timestamp := 500, question := [] })] ∧
     (SQLCache.set wMd5k ([] ++ (['z'], wE0) :: wPost) [] [] 500).length =
       SQLCache.max_size) ∧
    ((SemanticCache.set wMd5k (fun _ => none) wSemC [] [] 2000).length = 901 ∧
     (∀ p ∈ wSemC, p ∉ SemanticCache.evictOldest100 wSemC →
       ∀ p2 ∈ SemanticCache.evictOldest100 wSemC,
         p.2.timestamp ≤ p2.2.timestamp)) := by
  constructor
  · refine claim_C4.1 wMd5k [] [] 500 [] wPost ['z'] wE0 ?_ ?_ ?_ ?_ ?_
    · intro p hp
      exact absurd hp (List.not_mem_nil p)
    · intro p hp
      simp only [wPost, List.mem_map] at hp
      obtain ⟨i, _, hi⟩ := hp
      rw [← hi]
      simp [wE0]
    · simp [keysOf]
    · intro hmem
      simp only [List.nil_append, wPost, keysOf, List.map_map,
        List.mem_map] at hmem
      obtain ⟨i, _, hkey⟩ := hmem
      exact renderNat_ne_k i hkey
    · simp [wPost, SQLCache.max_size]
  · refine claim_C4.2 Unit wMd5k (fun _ => none) wSemC [] [] 2000 ?_ ?_ ?_
    · show ((wSemC).map (fun p => p.1)).Nodup
      simp only [wSemC, List.map_map]
      exact List.Nodup.map (fun a b h => renderNat_inj h) (List.nodup_range 1000)
    · intro hmem
      simp only [wSemC, keysOf, List.map_map, List.mem_map] at hmem
      obtain ⟨i, _, hkey⟩ := hmem
      exact renderNat_ne_k i hkey
    · simp [wSemC]

end SalesInsight
